import Mathlib

/-!
Verification of the Arabic text normalization and similarity scoring engine
of the recitation grading service.

Modelling conventions for the shallow embedding:
* Python strings are sequences of Unicode code points, modelled as `List Char`.
* Python floats are modelled as exact rationals (`ℚ`); every literal that the
  engine manipulates (0.3, 0.6, 0.8, 0.9, 0.95, 1.2) is an exact decimal.
* The final `.lower()` of the normalizer is the identity map on its input
  because at that point every remaining character lies in the Arabic block
  U+0600..U+06FF or is a space, and none of those characters has a lowercase
  mapping; it is therefore omitted.
-/

namespace QuranGrader

/-- Build a character from its code point. -/
def ch (n : Nat) : Char := Char.ofNat n

/-- The set of characters matched by the regex class `\s` on `str` patterns and
stripped by `str.strip()` in Python 3 (the Unicode whitespace characters). -/
def isPySpace (c : Char) : Bool :=
  (0x9 ≤ c.toNat && c.toNat ≤ 0xD) || (0x1C ≤ c.toNat && c.toNat ≤ 0x1F) ||
  c.toNat == 0x20 || c.toNat == 0x85 || c.toNat == 0xA0 || c.toNat == 0x1680 ||
  (0x2000 ≤ c.toNat && c.toNat ≤ 0x200A) || c.toNat == 0x2028 || c.toNat == 0x2029 ||
  c.toNat == 0x202F || c.toNat == 0x205F || c.toNat == 0x3000

/-- The diacritic range removed by the normalizer, `[ً-ْ]`. -/
def isDiacritic (c : Char) : Bool := 0x64B ≤ c.toNat && c.toNat ≤ 0x652

/-- Membership in the core Arabic block `[؀-ۿ]`. -/
def inArabicBlock (c : Char) : Bool := 0x600 ≤ c.toNat && c.toNat ≤ 0x6FF

/-- `re.sub(r'[أإآا]', 'ا', text)`, one character at a time. -/
def alefFix (c : Char) : Char :=
  if c = ch 0x623 ∨ c = ch 0x625 ∨ c = ch 0x622 ∨ c = ch 0x627 then ch 0x627 else c

/-- `re.sub(r'[يى]', 'ي', text)`. -/
def yaFix (c : Char) : Char := if c = ch 0x64A ∨ c = ch 0x649 then ch 0x64A else c

/-- `re.sub(r'[ةت]', 'ت', text)`. -/
def taFix (c : Char) : Char := if c = ch 0x629 ∨ c = ch 0x62A then ch 0x62A else c

/-- `re.sub(r'ٱ', 'ا', text)` (alef wasla). -/
def waslaFix (c : Char) : Char := if c = ch 0x671 then ch 0x627 else c

/-- `re.sub(r'ﷲ', 'الله', text)`: the Allah ligature U+FDF2 expands to four
letters; every other character is kept as is. -/
def allahExpand (c : Char) : List Char :=
  if c = ch 0xFDF2 then [ch 0x627, ch 0x644, ch 0x644, ch 0x647] else [c]

/-- `re.sub(r'\s+', ' ', text)`: every maximal run of whitespace characters is
replaced by a single space. -/
def collapseWs : List Char → List Char
  | [] => []
  | [c] => if isPySpace c then [' '] else [c]
  | c :: d :: rest =>
    if isPySpace c then
      if isPySpace d then collapseWs (d :: rest) else ' ' :: collapseWs (d :: rest)
    else c :: collapseWs (d :: rest)

/-- Remove a trailing run of whitespace characters. -/
def trimEnd : List Char → List Char
  | [] => []
  | c :: rest =>
    if (trimEnd rest).isEmpty then (if isPySpace c then [] else [c])
    else c :: trimEnd rest

/-- `str.strip()`: remove leading and trailing whitespace. -/
def stripWs (l : List Char) : List Char := trimEnd (l.dropWhile isPySpace)

/-- The substitution stages of `normalize_arabic_text` before whitespace
cleanup, in source order: remove diacritics, remove tatweel, merge alef
variants, merge yaa variants, merge taa variants, replace alef wasla, expand
the Allah ligature, delete the two honorific symbols, delete everything
outside the Arabic block except whitespace. -/
def normCore (text : List Char) : List Char :=
  ((((((((text.filter (fun c => !isDiacritic c)).filter
    (fun c => c != ch 0x640)).map alefFix).map yaFix).map taFix).map
    waslaFix).flatMap allahExpand).filter
    (fun c => c != ch 0xFDFA && c != ch 0xFDFB)).filter
    (fun c => inArabicBlock c || isPySpace c)

/-- `normalize_arabic_text` from the source: the substitution stages, then
whitespace collapsing and stripping. The final `.lower()` is the identity
here (see the header comment). -/
def normalize_arabic_text (text : List Char) : List Char :=
  stripWs (collapseWs (normCore text))

/-- `is_single_arabic_letter`: the normalized text is one character long and
that character lies in the Arabic block (the anchored `re.match`). -/
def is_single_arabic_letter (text : List Char) : Bool :=
  match normalize_arabic_text text with
  | [c] => inArabicBlock c
  | _ => false

/-- The dynamic programming table of `levenshtein_distance`: `levTable s1 s2 i j`
is the entry `d[i][j]` of the matrix built by the source, defined by the same
recurrence (`d[i][0] = i`, `d[0][j] = j`, interior cells by the three-way min
with substitution cost on `s1[i-1]` versus `s2[j-1]`). -/
def levTable (s1 s2 : List Char) : Nat → Nat → Nat
  | i, 0 => i
  | 0, j + 1 => j + 1
  | i + 1, j + 1 =>
    let cost : Nat := if s1.getD i ' ' = s2.getD j ' ' then 0 else 1
    min (levTable s1 s2 i (j + 1) + 1)
      (min (levTable s1 s2 (i + 1) j + 1) (levTable s1 s2 i j + cost))
  termination_by i j => i + j

/-- `levenshtein_distance(s1, s2)` returns the bottom-right table entry. -/
def levenshtein_distance (s1 s2 : List Char) : Nat :=
  levTable s1 s2 s1.length s2.length

/-- `compare_words`: normalized similarity `1 - distance / max_length`,
with `1.0` when both words are empty. -/
def compare_words (word1 word2 : List Char) : ℚ :=
  let max_length := max word1.length word2.length
  if max_length = 0 then 1
  else 1 - (levenshtein_distance word1 word2 : ℚ) / (max_length : ℚ)

/-- The phonetic lexicon `get_arabic_letter_phonetics`, copied key by key and
code point by code point from the source (29 entries; the table in the source
contains two identical alternatives for the letter U+0646 and a stray Latin
`a` inside one alternative of the key U+0649, both reproduced faithfully). -/
def get_arabic_letter_phonetics : List (List Char × List (List Char)) :=
  [([ch 0x627],
     [[ch 0x627, ch 0x644, ch 0x641],
      [ch 0x623, ch 0x644, ch 0x641],
      [ch 0x627, ch 0x644, ch 0x64A, ch 0x641],
      [ch 0x627, ch 0x644, ch 0x6CC, ch 0x641],
      [ch 0x61, ch 0x6C, ch 0x69, ch 0x66],
      [ch 0x61, ch 0x6C, ch 0x65, ch 0x66]]),
   ([ch 0x628],
     [[ch 0x628, ch 0x627, ch 0x621],
      [ch 0x628, ch 0x622, ch 0x621],
      [ch 0x628, ch 0x627],
      [ch 0x628, ch 0x627, ch 0x626],
      [ch 0x62, ch 0x61, ch 0x61],
      [ch 0x62, ch 0x61]]),
   ([ch 0x62A],
     [[ch 0x62A, ch 0x627, ch 0x621],
      [ch 0x62A, ch 0x622, ch 0x621],
      [ch 0x62A, ch 0x627],
      [ch 0x62A, ch 0x627, ch 0x626],
      [ch 0x74, ch 0x61, ch 0x61],
      [ch 0x74, ch 0x61]]),
   ([ch 0x62B],
     [[ch 0x62B, ch 0x627, ch 0x621],
      [ch 0x62B, ch 0x622, ch 0x621],
      [ch 0x62B, ch 0x627],
      [ch 0x62B, ch 0x627, ch 0x626],
      [ch 0x74, ch 0x68, ch 0x61, ch 0x61],
      [ch 0x74, ch 0x68, ch 0x61]]),
   ([ch 0x62C],
     [[ch 0x62C, ch 0x64A, ch 0x645],
      [ch 0x62C, ch 0x6CC, ch 0x645],
      [ch 0x62C, ch 0x645],
      [ch 0x6A, ch 0x69, ch 0x6D],
      [ch 0x6A, ch 0x65, ch 0x65, ch 0x6D]]),
   ([ch 0x62D],
     [[ch 0x62D, ch 0x627, ch 0x621],
      [ch 0x62D, ch 0x622, ch 0x621],
      [ch 0x62D, ch 0x627],
      [ch 0x62D, ch 0x627, ch 0x626],
      [ch 0x68, ch 0x61, ch 0x61],
      [ch 0x68, ch 0x61]]),
   ([ch 0x62E],
     [[ch 0x62E, ch 0x627, ch 0x621],
      [ch 0x62E, ch 0x622, ch 0x621],
      [ch 0x62E, ch 0x627],
      [ch 0x62E, ch 0x627, ch 0x626],
      [ch 0x6B, ch 0x68, ch 0x61, ch 0x61],
      [ch 0x6B, ch 0x68, ch 0x61]]),
   ([ch 0x62F],
     [[ch 0x62F, ch 0x627, ch 0x644],
      [ch 0x62F, ch 0x622, ch 0x644],
      [ch 0x62F, ch 0x644],
      [ch 0x64, ch 0x61, ch 0x6C],
      [ch 0x64, ch 0x61, ch 0x61, ch 0x6C]]),
   ([ch 0x630],
     [[ch 0x630, ch 0x627, ch 0x644],
      [ch 0x630, ch 0x622, ch 0x644],
      [ch 0x630, ch 0x644],
      [ch 0x7A, ch 0x61, ch 0x6C],
      [ch 0x74, ch 0x68, ch 0x61, ch 0x61, ch 0x6C]]),
   ([ch 0x631],
     [[ch 0x631, ch 0x627, ch 0x621],
      [ch 0x631, ch 0x622, ch 0x621],
      [ch 0x631, ch 0x627],
      [ch 0x631, ch 0x627, ch 0x626],
      [ch 0x72, ch 0x61, ch 0x61],
      [ch 0x72, ch 0x61]]),
   ([ch 0x632],
     [[ch 0x632, ch 0x627, ch 0x64A],
      [ch 0x632, ch 0x627, ch 0x6CC],
      [ch 0x632, ch 0x64A],
      [ch 0x632, ch 0x6CC],
      [ch 0x7A, ch 0x61, ch 0x79],
      [ch 0x7A, ch 0x61, ch 0x61, ch 0x79]]),
   ([ch 0x633],
     [[ch 0x633, ch 0x64A, ch 0x646],
      [ch 0x633, ch 0x6CC, ch 0x646],
      [ch 0x633, ch 0x646],
      [ch 0x73, ch 0x65, ch 0x65, ch 0x6E],
      [ch 0x73, ch 0x69, ch 0x6E]]),
   ([ch 0x634],
     [[ch 0x634, ch 0x64A, ch 0x646],
      [ch 0x634, ch 0x6CC, ch 0x646],
      [ch 0x634, ch 0x646],
      [ch 0x73, ch 0x68, ch 0x65, ch 0x65, ch 0x6E],
      [ch 0x73, ch 0x68, ch 0x69, ch 0x6E]]),
   ([ch 0x635],
     [[ch 0x635, ch 0x627, ch 0x62F],
      [ch 0x635, ch 0x622, ch 0x62F],
      [ch 0x635, ch 0x62F],
      [ch 0x73, ch 0x61, ch 0x61, ch 0x64],
      [ch 0x73, ch 0x61, ch 0x64]]),
   ([ch 0x636],
     [[ch 0x636, ch 0x627, ch 0x62F],
      [ch 0x636, ch 0x622, ch 0x62F],
      [ch 0x636, ch 0x62F],
      [ch 0x64, ch 0x61, ch 0x61, ch 0x64],
      [ch 0x64, ch 0x68, ch 0x61, ch 0x64]]),
   ([ch 0x637],
     [[ch 0x637, ch 0x627, ch 0x621],
      [ch 0x637, ch 0x622, ch 0x621],
      [ch 0x637, ch 0x627],
      [ch 0x637, ch 0x627, ch 0x626],
      [ch 0x74, ch 0x61, ch 0x61],
      [ch 0x74, ch 0x61]]),
   ([ch 0x638],
     [[ch 0x638, ch 0x627, ch 0x621],
      [ch 0x638, ch 0x622, ch 0x621],
      [ch 0x638, ch 0x627],
      [ch 0x638, ch 0x627, ch 0x626],
      [ch 0x7A, ch 0x61, ch 0x61],
      [ch 0x7A, ch 0x61]]),
   ([ch 0x639],
     [[ch 0x639, ch 0x64A, ch 0x646],
      [ch 0x639, ch 0x6CC, ch 0x646],
      [ch 0x639, ch 0x646],
      [ch 0x61, ch 0x79, ch 0x6E],
      [ch 0x61, ch 0x69, ch 0x6E]]),
   ([ch 0x63A],
     [[ch 0x63A, ch 0x64A, ch 0x646],
      [ch 0x63A, ch 0x6CC, ch 0x646],
      [ch 0x63A, ch 0x646],
      [ch 0x67, ch 0x68, ch 0x61, ch 0x79, ch 0x6E],
      [ch 0x67, ch 0x68, ch 0x61, ch 0x69, ch 0x6E]]),
   ([ch 0x641],
     [[ch 0x641, ch 0x627, ch 0x621],
      [ch 0x641, ch 0x622, ch 0x621],
      [ch 0x641, ch 0x627],
      [ch 0x641, ch 0x627, ch 0x626],
      [ch 0x66, ch 0x61, ch 0x61],
      [ch 0x66, ch 0x61]]),
   ([ch 0x642],
     [[ch 0x642, ch 0x627, ch 0x641],
      [ch 0x642, ch 0x622, ch 0x641],
      [ch 0x642, ch 0x641],
      [ch 0x71, ch 0x61, ch 0x61, ch 0x66],
      [ch 0x71, ch 0x61, ch 0x66]]),
   ([ch 0x643],
     [[ch 0x643, ch 0x627, ch 0x641],
      [ch 0x643, ch 0x622, ch 0x641],
      [ch 0x643, ch 0x641],
      [ch 0x6B, ch 0x61, ch 0x61, ch 0x66],
      [ch 0x6B, ch 0x61, ch 0x66]]),
   ([ch 0x644],
     [[ch 0x644, ch 0x627, ch 0x645],
      [ch 0x644, ch 0x622, ch 0x645],
      [ch 0x644, ch 0x645],
      [ch 0x6C, ch 0x61, ch 0x61, ch 0x6D],
      [ch 0x6C, ch 0x61, ch 0x6D]]),
   ([ch 0x645],
     [[ch 0x645, ch 0x64A, ch 0x645],
      [ch 0x645, ch 0x6CC, ch 0x645],
      [ch 0x645, ch 0x645],
      [ch 0x6D, ch 0x65, ch 0x65, ch 0x6D],
      [ch 0x6D, ch 0x69, ch 0x6D]]),
   ([ch 0x646],
     [[ch 0x646, ch 0x648, ch 0x646],
      [ch 0x646, ch 0x648, ch 0x646],
      [ch 0x646, ch 0x646],
      [ch 0x6E, ch 0x6F, ch 0x6F, ch 0x6E],
      [ch 0x6E, ch 0x75, ch 0x6E]]),
   ([ch 0x647],
     [[ch 0x647, ch 0x627, ch 0x621],
      [ch 0x647, ch 0x622, ch 0x621],
      [ch 0x647, ch 0x627],
      [ch 0x647, ch 0x627, ch 0x626],
      [ch 0x68, ch 0x61, ch 0x61],
      [ch 0x68, ch 0x61]]),
   ([ch 0x648],
     [[ch 0x648, ch 0x627, ch 0x648],
      [ch 0x648, ch 0x622, ch 0x648],
      [ch 0x648, ch 0x648],
      [ch 0x77, ch 0x61, ch 0x61, ch 0x77],
      [ch 0x77, ch 0x61, ch 0x77]]),
   ([ch 0x64A],
     [[ch 0x64A, ch 0x627, ch 0x621],
      [ch 0x6CC, ch 0x627, ch 0x621],
      [ch 0x6CC, ch 0x622, ch 0x621],
      [ch 0x64A, ch 0x627, ch 0x626],
      [ch 0x6CC, ch 0x627, ch 0x626],
      [ch 0x79, ch 0x61, ch 0x61],
      [ch 0x79, ch 0x61]]),
   ([ch 0x649],
     [[ch 0x64A, ch 0x627, ch 0x621],
      [ch 0x6CC, ch 0x61, ch 0x621],
      [ch 0x6CC, ch 0x622, ch 0x621],
      [ch 0x64A, ch 0x627, ch 0x626],
      [ch 0x6CC, ch 0x627, ch 0x626],
      [ch 0x79, ch 0x61, ch 0x61],
      [ch 0x79, ch 0x61]])]

/-- The membership test `normalized_target in phonetics` together with the
indexing `phonetics[normalized_target]` (first matching key, as in a dict
whose keys are distinct). -/
def phonLookup (t : List Char) : Option (List (List Char)) :=
  (get_arabic_letter_phonetics.find? (fun p => p.1 == t)).map (fun p => p.2)

/-- Auxiliary for the Python substring test: `a` is an initial run of `b`. -/
def leadsList : List Char → List Char → Bool
  | [], _ => true
  | _ :: _, [] => false
  | x :: xs, y :: ys => x == y && leadsList xs ys

/-- Python `a in b` on strings: `a` occurs contiguously inside `b` (the empty
string occurs in every string). -/
def occursIn (a : List Char) : List Char → Bool
  | [] => leadsList a []
  | c :: bs => leadsList a (c :: bs) || occursIn a bs

/-- `calculate_phonetic_similarity` from the source: running maximum of the
word similarity against each normalized alternative, a 0.6 short-utterance
return when that maximum is poor, otherwise the 0.8-discounted maximum. -/
def calculate_phonetic_similarity (spoken target : List Char)
    (alternatives : List (List Char)) : ℚ :=
  let max_similarity := alternatives.foldl
    (fun acc alt => max acc (compare_words spoken (normalize_arabic_text alt))) 0
  if max_similarity < 0.3 ∧ spoken.length ≤ 3 ∧ occursIn target spoken then 0.6
  else max_similarity * 0.8

/-- The alternative-scanning loop of `compare_single_letter`: first alternative
equal to the normalized spoken text returns 0.95; a containment with word
similarity above 0.7 returns that similarity times 0.9; otherwise the loop
continues, and `none` means the loop fell through. -/
def letterAltLoop (normalized_spoken : List Char) : List (List Char) → Option ℚ
  | [] => none
  | alternative :: rest =>
    let normalized_alt := normalize_arabic_text alternative
    if normalized_spoken = normalized_alt then some 0.95
    else if occursIn normalized_alt normalized_spoken ||
        occursIn normalized_spoken normalized_alt then
      let similarity := compare_words normalized_spoken normalized_alt
      if similarity > 0.7 then some (similarity * 0.9)
      else letterAltLoop normalized_spoken rest
    else letterAltLoop normalized_spoken rest

/-- `compare_single_letter` from the source. -/
def compare_single_letter (spoken target_letter : List Char) : ℚ :=
  let normalized_spoken := normalize_arabic_text spoken
  let normalized_target := normalize_arabic_text target_letter
  if normalized_spoken = normalized_target then 1
  else
    match phonLookup normalized_target with
    | none => 0
    | some alternatives =>
      match letterAltLoop normalized_spoken alternatives with
      | some v => v
      | none =>
        if occursIn normalized_target normalized_spoken then 0.8
        else calculate_phonetic_similarity normalized_spoken normalized_target alternatives

/-- `str.split(' ')`: split on single spaces, keeping empty pieces. -/
def splitOnSpace : List Char → List (List Char)
  | [] => [[]]
  | c :: rest =>
    if c = ' ' then [] :: splitOnSpace rest
    else
      match splitOnSpace rest with
      | [] => [[c]]
      | w :: ws => (c :: w) :: ws

/-- `[w for w in text.split(' ') if w]`: the word tokens of a string. -/
def splitTokens (l : List Char) : List (List Char) :=
  (splitOnSpace l).filter (fun w => !w.isEmpty)

/-- The per-position similarity of the main loop of `compare_quranic_arabic`,
before the positional rescue: single-letter delegation, exact match, or fuzzy
similarity with the capped containment bonus; 0 when no recited token exists
at this position. -/
def position_similarity_base (recited_words reference_words : List (List Char))
    (i : Nat) : ℚ :=
  if i < recited_words.length then
    let rw := recited_words.getD i []
    let fw := reference_words.getD i []
    if is_single_arabic_letter fw then compare_single_letter rw fw
    else if rw = fw then 1
    else
      let base_similarity := compare_words rw fw
      let containment_bonus : ℚ := if occursIn fw rw || occursIn rw fw then 0.3 else 0
      min 1 (base_similarity + containment_bonus)
  else 0

/-- The positional rescue loop: scan every other recited index in order and
replace the running similarity by `alt_similarity * 0.8` whenever the
alternative similarity beats the current running value. -/
def positional_rescue (recited_words : List (List Char)) (ref_word : List Char)
    (i : Nat) (w : ℚ) : ℚ :=
  (List.range recited_words.length).foldl
    (fun acc j =>
      if j ≠ i then
        let alt_similarity := compare_words (recited_words.getD j []) ref_word
        if alt_similarity > acc then alt_similarity * 0.8 else acc
      else acc) w

/-- One full iteration of the reference-token loop: base similarity, then the
positional rescue when the base similarity is below 0.6. -/
def position_similarity (recited_words reference_words : List (List Char))
    (i : Nat) : ℚ :=
  let w := position_similarity_base recited_words reference_words i
  if w < 0.6 then positional_rescue recited_words (reference_words.getD i []) i w
  else w

/-- `compare_quranic_arabic` from the source. -/
def compare_quranic_arabic (recited reference : List Char) : ℚ :=
  let recitedN := normalize_arabic_text recited
  let referenceN := normalize_arabic_text reference
  if is_single_arabic_letter referenceN then compare_single_letter recitedN referenceN
  else
    let recited_words := splitTokens recitedN
    let reference_words := splitTokens referenceN
    if reference_words.isEmpty then 0
    else if recited_words.isEmpty then 0
    else
      let total_words := reference_words.length
      let total_similarity := (List.range total_words).foldl
        (fun acc i => acc + position_similarity recited_words reference_words i) 0
      let average_similarity := total_similarity / (total_words : ℚ)
      let length_ratio : ℚ := (recited_words.length : ℚ) / (reference_words.length : ℚ)
      let length_penalty : ℚ := if length_ratio < 0.8 ∨ length_ratio > 1.2 then 0.9 else 1
      average_similarity * length_penalty

/-- Reference definition for the edit distance: the textbook recursion that
peels characters from the front. Related to `levenshtein_distance` below. -/
def lev : List Char → List Char → Nat
  | [], ys => ys.length
  | x :: xs, [] => (x :: xs).length
  | x :: xs, y :: ys =>
    min (lev xs (y :: ys) + 1)
      (min (lev (x :: xs) ys + 1) (lev xs ys + if x = y then 0 else 1))

/-- Edit scripts: `Aligns xs ys n` holds when `ys` is reachable from `xs` by a
sequence of keeps (free), substitutions, insertions and deletions of total
cost `n`. -/
inductive Aligns : List Char → List Char → Nat → Prop
  | nil : Aligns [] [] 0
  | keep (x : Char) {xs ys : List Char} {n : Nat} :
      Aligns xs ys n → Aligns (x :: xs) (x :: ys) n
  | subst (x y : Char) {xs ys : List Char} {n : Nat} :
      Aligns xs ys n → Aligns (x :: xs) (y :: ys) (n + 1)
  | ins (y : Char) {xs ys : List Char} {n : Nat} :
      Aligns xs ys n → Aligns xs (y :: ys) (n + 1)
  | del (x : Char) {xs ys : List Char} {n : Nat} :
      Aligns xs ys n → Aligns (x :: xs) ys (n + 1)

/-- A character that can appear in the output of the normalizer: a space or an
Arabic-block character that every normalization stage leaves unchanged. -/
def canonChar (c : Char) : Bool :=
  (c == ' ' || inArabicBlock c) && !isDiacritic c && c != ch 0x640 &&
  c != ch 0x623 && c != ch 0x625 && c != ch 0x622 && c != ch 0x671 &&
  c != ch 0x649 && c != ch 0x629

/-- The character property holding after the substitution stages and before
whitespace cleanup: inside the Arabic block or whitespace, and fixed by every
substitution stage. -/
def preCanon (c : Char) : Bool :=
  (inArabicBlock c || isPySpace c) && !isDiacritic c && c != ch 0x640 &&
  c != ch 0x623 && c != ch 0x625 && c != ch 0x622 && c != ch 0x671 &&
  c != ch 0x649 && c != ch 0x629

/-- Two adjacent characters are never both whitespace. -/
def SpacedRel (a b : Char) : Prop := isPySpace a = false ∨ isPySpace b = false

/-- The structural invariant of normalizer output: canonical characters only,
no two adjacent whitespace characters, and no leading or trailing whitespace. -/
def NormOK (l : List Char) : Prop :=
  (∀ c ∈ l, canonChar c = true) ∧ List.Chain' SpacedRel l ∧
  (∀ c, l.head? = some c → isPySpace c = false) ∧
  (∀ c, l.getLast? = some c → isPySpace c = false)

/-- The maximum of a list of rationals, with 0 for the empty list; used to
state the phonetic-fallback claim independently of the fold in the source. -/
def maxList : List ℚ → ℚ
  | [] => 0
  | x :: xs => max x (maxList xs)

/-- The phrase `بسم الله`. -/
def sample_basmala : List Char :=
  [ch 0x628, ch 0x633, ch 0x645, ch 0x20, ch 0x627, ch 0x644, ch 0x644, ch 0x647]

/-- The full opening phrase `بسم الله الرحمن الرحيم` (four words). -/
def sample_basmala_full : List Char :=
  [ch 0x628, ch 0x633, ch 0x645, ch 0x20, ch 0x627, ch 0x644, ch 0x644, ch 0x647,
   ch 0x20, ch 0x627, ch 0x644, ch 0x631, ch 0x62D, ch 0x645, ch 0x646,
   ch 0x20, ch 0x627, ch 0x644, ch 0x631, ch 0x62D, ch 0x64A, ch 0x645]

/-- A noisy input: leading spaces, diacritics, repeated spaces, punctuation and
Latin letters; its normalization is `sample_basmala`. -/
def sample_noisy : List Char :=
  [ch 0x20, ch 0x20, ch 0x628, ch 0x650, ch 0x633, ch 0x652, ch 0x645, ch 0x650,
   ch 0x20, ch 0x20, ch 0x20, ch 0x627, ch 0x644, ch 0x644, ch 0x647,
   ch 0x21, ch 0x21, ch 0x20, ch 0x61, ch 0x62, ch 0x63, ch 0x20]

/-- A two-token recitation `اب تث`. -/
def sample_two_tokens : List Char :=
  [ch 0x627, ch 0x628, ch 0x20, ch 0x62A, ch 0x62B]

/-- A five-token reference `اب تث جح خد ذر`. -/
def sample_five_tokens : List Char :=
  [ch 0x627, ch 0x628, ch 0x20, ch 0x62A, ch 0x62B, ch 0x20, ch 0x62C, ch 0x62D,
   ch 0x20, ch 0x62E, ch 0x62F, ch 0x20, ch 0x630, ch 0x631]

/-- The word `قلم`. -/
def sample_qlm : List Char := [ch 0x642, ch 0x644, ch 0x645]

/-- The bare letter `ب`. -/
def sample_ba : List Char := [ch 0x628]

/-- The letter name `باء`. -/
def sample_baa : List Char := [ch 0x628, ch 0x627, ch 0x621]

/-- Two exclamation marks; the normalization is empty. -/
def sample_excl : List Char := [ch 0x21, ch 0x21]

/-- The alternatives stored in the lexicon for the letter `ب`. -/
def sample_ba_alts : List (List Char) :=
  [[ch 0x628, ch 0x627, ch 0x621],
   [ch 0x628, ch 0x622, ch 0x621],
   [ch 0x628, ch 0x627],
   [ch 0x628, ch 0x627, ch 0x626],
   [ch 0x62, ch 0x61, ch 0x61],
   [ch 0x62, ch 0x61]]

/-! ### Generic list lemmas -/

theorem map_id_of {α : Type} (f : α → α) :
    ∀ l : List α, (∀ c ∈ l, f c = c) → l.map f = l
  | [], _ => rfl
  | x :: xs, h => by
    have hx := h x (by simp)
    have hxs := map_id_of f xs (fun c hc => h c (by simp [hc]))
    simp [hx, hxs]

theorem flatMap_id_of {α : Type} (f : α → List α) :
    ∀ l : List α, (∀ c ∈ l, f c = [c]) → l.flatMap f = l
  | [], _ => by simp
  | x :: xs, h => by
    have hx := h x (by simp)
    have hxs := flatMap_id_of f xs (fun c hc => h c (by simp [hc]))
    simp [hx, hxs]

/-! ### Whitespace machinery: collapseWs, trimEnd, dropWhile, stripWs -/

theorem mem_collapseWs : ∀ l : List Char, ∀ c ∈ collapseWs l,
    c = ' ' ∨ (c ∈ l ∧ isPySpace c = false)
  | [], c => by simp [collapseWs]
  | [d], c => by
    by_cases hd : isPySpace d
    · simp only [collapseWs, if_pos hd, List.mem_singleton]
      rintro rfl; exact Or.inl rfl
    · simp only [collapseWs, if_neg hd, List.mem_singleton]
      rintro rfl
      exact Or.inr ⟨by simp, by simpa using hd⟩
  | a :: d :: rest, c => by
    intro h
    by_cases ha : isPySpace a
    · by_cases hd : isPySpace d
      · have h' : c ∈ collapseWs (d :: rest) := by
          simpa [collapseWs, ha, hd] using h
        rcases mem_collapseWs (d :: rest) c h' with h1 | ⟨h2, h3⟩
        · exact Or.inl h1
        · exact Or.inr ⟨List.mem_cons_of_mem _ h2, h3⟩
      · have h' : c = ' ' ∨ c ∈ collapseWs (d :: rest) := by
          simpa [collapseWs, ha, hd] using h
        rcases h' with rfl | h'
        · exact Or.inl rfl
        · rcases mem_collapseWs (d :: rest) c h' with h1 | ⟨h2, h3⟩
          · exact Or.inl h1
          · exact Or.inr ⟨List.mem_cons_of_mem _ h2, h3⟩
    · have h' : c = a ∨ c ∈ collapseWs (d :: rest) := by
        simpa [collapseWs, ha] using h
      rcases h' with rfl | h'
      · exact Or.inr ⟨by simp, by simpa using ha⟩
      · rcases mem_collapseWs (d :: rest) c h' with h1 | ⟨h2, h3⟩
        · exact Or.inl h1
        · exact Or.inr ⟨List.mem_cons_of_mem _ h2, h3⟩

theorem head?_collapseWs : ∀ (d : Char) (l : List Char), isPySpace d = false →
    (collapseWs (d :: l)).head? = some d
  | d, [], h => by simp [collapseWs, h]
  | d, e :: l, h => by simp [collapseWs, h]

theorem collapseWs_ne_nil : ∀ (d : Char) (l : List Char), collapseWs (d :: l) ≠ []
  | d, [] => by by_cases h : isPySpace d <;> simp [collapseWs, h]
  | d, e :: l => by
    by_cases h : isPySpace d
    · by_cases h2 : isPySpace e
      · simpa [collapseWs, h, h2] using collapseWs_ne_nil e l
      · simp [collapseWs, h, h2]
    · simp [collapseWs, h]

theorem chain'_collapseWs : ∀ l : List Char, List.Chain' SpacedRel (collapseWs l)
  | [] => by simp [collapseWs]
  | [d] => by by_cases h : isPySpace d <;> simp [collapseWs, h]
  | a :: d :: rest => by
    have hchain := chain'_collapseWs (d :: rest)
    by_cases ha : isPySpace a
    · by_cases hd : isPySpace d
      · simpa [collapseWs, ha, hd] using hchain
      · have hd' : isPySpace d = false := by simpa using hd
        have hhead := head?_collapseWs d rest hd'
        rw [collapseWs, if_pos ha, if_neg hd]
        refine List.chain'_cons'.mpr ⟨?_, hchain⟩
        intro y hy
        rw [hhead] at hy
        cases hy
        exact Or.inr hd'
    · rw [collapseWs, if_neg ha]
      refine List.chain'_cons'.mpr ⟨?_, hchain⟩
      intro y _
      exact Or.inl (by simpa using ha)

theorem mem_trimEnd : ∀ l : List Char, ∀ c ∈ trimEnd l, c ∈ l
  | [], c => by simp [trimEnd]
  | a :: rest, c => by
    intro h
    rw [trimEnd] at h
    by_cases he : (trimEnd rest).isEmpty
    · rw [if_pos he] at h
      by_cases ha : isPySpace a
      · simp [ha] at h
      · rw [if_neg ha] at h
        simp only [List.mem_singleton] at h
        simp [h]
    · rw [if_neg he] at h
      rcases List.mem_cons.mp h with rfl | h'
      · simp
      · exact List.mem_cons_of_mem _ (mem_trimEnd rest c h')

theorem head?_trimEnd : ∀ (a : Char) (l : List Char) (d : Char),
    (trimEnd (a :: l)).head? = some d → d = a := by
  intro a l d h
  rw [trimEnd] at h
  by_cases he : (trimEnd l).isEmpty
  · rw [if_pos he] at h
    by_cases ha : isPySpace a
    · rw [if_pos ha] at h; simp at h
    · rw [if_neg ha] at h; simp at h; exact h.symm
  · rw [if_neg he] at h
    simp at h; exact h.symm

theorem getLast?_trimEnd : ∀ (l : List Char) (d : Char),
    (trimEnd l).getLast? = some d → isPySpace d = false
  | [], d => by simp [trimEnd]
  | a :: rest, d => by
    intro h
    rw [trimEnd] at h
    by_cases he : (trimEnd rest).isEmpty
    · rw [if_pos he] at h
      by_cases ha : isPySpace a
      · rw [if_pos ha] at h; simp at h
      · rw [if_neg ha] at h
        simp only [List.getLast?_singleton, Option.some.injEq] at h
        subst h; simpa using ha
    · rw [if_neg he] at h
      have hne : trimEnd rest ≠ [] := by simpa [List.isEmpty_iff] using he
      obtain ⟨r, rs, hrr⟩ := List.exists_cons_of_ne_nil hne
      rw [hrr, List.getLast?_cons_cons] at h
      exact getLast?_trimEnd rest d (by rw [hrr]; exact h)

theorem chain'_trimEnd : ∀ l : List Char,
    List.Chain' SpacedRel l → List.Chain' SpacedRel (trimEnd l)
  | [], _ => by simp [trimEnd]
  | a :: rest, h => by
    rw [trimEnd]
    by_cases he : (trimEnd rest).isEmpty
    · rw [if_pos he]
      by_cases ha : isPySpace a <;> simp [ha]
    · rw [if_neg he]
      have htail : List.Chain' SpacedRel (trimEnd rest) := chain'_trimEnd rest h.tail
      refine List.chain'_cons'.mpr ⟨?_, htail⟩
      intro y hy
      have hne : trimEnd rest ≠ [] := by simpa [List.isEmpty_iff] using he
      obtain ⟨b, rest', rfl⟩ : ∃ b rest', rest = b :: rest' := by
        cases rest with
        | nil => simp [trimEnd] at hne
        | cons b rest' => exact ⟨b, rest', rfl⟩
      have hyb : y = b := head?_trimEnd b rest' y (by simpa using hy)
      subst hyb
      exact (List.chain'_cons.mp h).1

theorem mem_dropWhile : ∀ l : List Char, ∀ c ∈ l.dropWhile isPySpace, c ∈ l
  | [], c => by simp
  | a :: rest, c => by
    intro h
    by_cases ha : isPySpace a
    · rw [List.dropWhile_cons, if_pos ha] at h
      exact List.mem_cons_of_mem _ (mem_dropWhile rest c h)
    · rw [List.dropWhile_cons, if_neg ha] at h
      exact h

theorem head?_dropWhile : ∀ (l : List Char) (c : Char),
    (l.dropWhile isPySpace).head? = some c → isPySpace c = false
  | [], c => by simp
  | a :: rest, c => by
    intro h
    by_cases ha : isPySpace a
    · rw [List.dropWhile_cons, if_pos ha] at h
      exact head?_dropWhile rest c h
    · rw [List.dropWhile_cons, if_neg ha] at h
      simp only [List.head?_cons, Option.some.injEq] at h
      subst h; simpa using ha

theorem chain'_dropWhile : ∀ l : List Char,
    List.Chain' SpacedRel l → List.Chain' SpacedRel (l.dropWhile isPySpace)
  | [], h => by simp
  | a :: rest, h => by
    by_cases ha : isPySpace a
    · rw [List.dropWhile_cons, if_pos ha]
      exact chain'_dropWhile rest h.tail
    · rw [List.dropWhile_cons, if_neg ha]
      exact h

theorem mem_stripWs (l : List Char) (c : Char) (h : c ∈ stripWs l) : c ∈ l :=
  mem_dropWhile l c (mem_trimEnd _ c h)

theorem head?_stripWs (l : List Char) (c : Char)
    (h : (stripWs l).head? = some c) : isPySpace c = false := by
  unfold stripWs at h
  cases hm : l.dropWhile isPySpace with
  | nil => rw [hm] at h; simp [trimEnd] at h
  | cons b m' =>
    rw [hm] at h
    have hcb : c = b := head?_trimEnd b m' c h
    subst hcb
    exact head?_dropWhile l c (by rw [hm]; rfl)

theorem getLast?_stripWs (l : List Char) (c : Char)
    (h : (stripWs l).getLast? = some c) : isPySpace c = false :=
  getLast?_trimEnd _ c h

theorem chain'_stripWs (l : List Char) (h : List.Chain' SpacedRel l) :
    List.Chain' SpacedRel (stripWs l) :=
  chain'_trimEnd _ (chain'_dropWhile l h)

theorem trimEnd_eq_self : ∀ l : List Char,
    (∀ c, l.getLast? = some c → isPySpace c = false) → trimEnd l = l
  | [], _ => rfl
  | a :: rest, h => by
    rw [trimEnd]
    cases rest with
    | nil =>
      have ha := h a (by simp)
      simp [trimEnd, ha]
    | cons b rest' =>
      have hr : trimEnd (b :: rest') = b :: rest' :=
        trimEnd_eq_self (b :: rest')
          (fun c hc => h c (by rw [List.getLast?_cons_cons]; exact hc))
      rw [hr]
      simp

theorem dropWhile_eq_self (l : List Char)
    (h : ∀ c, l.head? = some c → isPySpace c = false) :
    l.dropWhile isPySpace = l := by
  cases l with
  | nil => rfl
  | cons a rest =>
    have := h a (by simp)
    rw [List.dropWhile_cons, if_neg (by simp [this])]

theorem stripWs_eq_self (l : List Char)
    (hh : ∀ c, l.head? = some c → isPySpace c = false)
    (hl : ∀ c, l.getLast? = some c → isPySpace c = false) : stripWs l = l := by
  unfold stripWs
  rw [dropWhile_eq_self l hh, trimEnd_eq_self l hl]

theorem collapseWs_eq_self : ∀ l : List Char, List.Chain' SpacedRel l →
    (∀ c ∈ l, isPySpace c = true → c = ' ') → collapseWs l = l
  | [], _, _ => rfl
  | [d], _, hs => by
    by_cases hd : isPySpace d
    · rw [collapseWs, if_pos hd, hs d (by simp) (by simpa using hd)]
    · rw [collapseWs, if_neg hd]
  | a :: d :: rest, hch, hs => by
    have htail := collapseWs_eq_self (d :: rest) hch.tail
      (fun c hc h => hs c (by simp [hc]) h)
    by_cases ha : isPySpace a
    · have had : isPySpace d = false := by
        rcases (List.chain'_cons.mp hch).1 with h | h
        · rw [h] at ha; cases ha
        · exact h
      rw [collapseWs, if_pos ha, if_neg (by simp [had]), htail,
        hs a (by simp) (by simpa using ha)]
    · rw [collapseWs, if_neg ha, htail]

/-! ### The normalizer invariant and idempotence -/

theorem subst_stage_props (c0 : Char) (hd : isDiacritic c0 = false)
    (ht : c0 ≠ ch 0x640) :
    ∀ c ∈ allahExpand (waslaFix (taFix (yaFix (alefFix c0)))),
      isDiacritic c = false ∧ c ≠ ch 0x640 ∧ c ≠ ch 0x623 ∧ c ≠ ch 0x625 ∧
      c ≠ ch 0x622 ∧ c ≠ ch 0x671 ∧ c ≠ ch 0x649 ∧ c ≠ ch 0x629 := by
  intro c hc
  by_cases h1 : c0 = ch 0x623 ∨ c0 = ch 0x625 ∨ c0 = ch 0x622 ∨ c0 = ch 0x627
  · rw [alefFix, if_pos h1] at hc
    have he : allahExpand (waslaFix (taFix (yaFix (ch 0x627)))) = [ch 0x627] := by decide
    rw [he, List.mem_singleton] at hc
    subst hc; refine ⟨by decide, by decide, by decide, by decide, by decide,
      by decide, by decide, by decide⟩
  · rw [alefFix, if_neg h1] at hc
    push_neg at h1
    obtain ⟨n623, n625, n622, _⟩ := h1
    by_cases h2 : c0 = ch 0x64A ∨ c0 = ch 0x649
    · rw [yaFix, if_pos h2] at hc
      have he : allahExpand (waslaFix (taFix (ch 0x64A))) = [ch 0x64A] := by decide
      rw [he, List.mem_singleton] at hc
      subst hc; refine ⟨by decide, by decide, by decide, by decide, by decide,
        by decide, by decide, by decide⟩
    · rw [yaFix, if_neg h2] at hc
      push_neg at h2
      obtain ⟨_, n649⟩ := h2
      by_cases h3 : c0 = ch 0x629 ∨ c0 = ch 0x62A
      · rw [taFix, if_pos h3] at hc
        have he : allahExpand (waslaFix (ch 0x62A)) = [ch 0x62A] := by decide
        rw [he, List.mem_singleton] at hc
        subst hc; refine ⟨by decide, by decide, by decide, by decide, by decide,
          by decide, by decide, by decide⟩
      · rw [taFix, if_neg h3] at hc
        push_neg at h3
        obtain ⟨n629, _⟩ := h3
        by_cases h4 : c0 = ch 0x671
        · rw [waslaFix, if_pos h4] at hc
          have he : allahExpand (ch 0x627) = [ch 0x627] := by decide
          rw [he, List.mem_singleton] at hc
          subst hc; refine ⟨by decide, by decide, by decide, by decide, by decide,
            by decide, by decide, by decide⟩
        · rw [waslaFix, if_neg h4] at hc
          by_cases h5 : c0 = ch 0xFDF2
          · rw [allahExpand, if_pos h5] at hc
            simp only [List.mem_cons, List.mem_singleton, List.not_mem_nil,
              or_false] at hc
            rcases hc with rfl | rfl | rfl | rfl <;>
              refine ⟨by decide, by decide, by decide, by decide,
                by decide, by decide, by decide, by decide⟩
          · rw [allahExpand, if_neg h5, List.mem_singleton] at hc
            subst hc
            exact ⟨hd, ht, n623, n625, n622, h4, n649, n629⟩

theorem mem_normCore (x : List Char) : ∀ c ∈ normCore x, preCanon c = true := by
  intro c hc
  unfold normCore at hc
  rw [List.mem_filter] at hc
  obtain ⟨hc8, h9⟩ := hc
  rw [List.mem_filter] at hc8
  obtain ⟨hc7, _⟩ := hc8
  rw [List.mem_flatMap] at hc7
  obtain ⟨c6, hc6, hcmem⟩ := hc7
  rw [List.mem_map] at hc6
  obtain ⟨c5, hc5, rfl⟩ := hc6
  rw [List.mem_map] at hc5
  obtain ⟨c4, hc4, rfl⟩ := hc5
  rw [List.mem_map] at hc4
  obtain ⟨c3, hc3, rfl⟩ := hc4
  rw [List.mem_map] at hc3
  obtain ⟨c0, hc0, rfl⟩ := hc3
  rw [List.mem_filter] at hc0
  obtain ⟨hc0', ht⟩ := hc0
  rw [List.mem_filter] at hc0'
  obtain ⟨_, hd⟩ := hc0'
  have props := subst_stage_props c0 (by simpa using hd) (by simpa using ht) c hcmem
  obtain ⟨p1, p2, p3, p4, p5, p6, p7, p8⟩ := props
  simp [preCanon, bne_iff_ne, p1, p2, p3, p4, p5, p6, p7, p8, h9]

theorem canon_props (c : Char) (h : canonChar c = true) :
    (c = ' ' ∨ inArabicBlock c = true) ∧ isDiacritic c = false ∧ c ≠ ch 0x640 ∧
    c ≠ ch 0x623 ∧ c ≠ ch 0x625 ∧ c ≠ ch 0x622 ∧ c ≠ ch 0x671 ∧
    c ≠ ch 0x649 ∧ c ≠ ch 0x629 := by
  simp only [canonChar, Bool.and_eq_true, Bool.or_eq_true, beq_iff_eq,
    bne_iff_ne, Bool.not_eq_true', ne_eq] at h
  tauto

theorem canonChar_of (c : Char) (hp : preCanon c = true) (hs : isPySpace c = false) :
    canonChar c = true := by
  simp only [preCanon, Bool.and_eq_true, Bool.or_eq_true] at hp
  have hb : inArabicBlock c = true := by
    have h1 := hp.1.1.1.1.1.1.1.1
    rcases h1 with h1 | h1
    · exact h1
    · rw [hs] at h1; cases h1
  simp only [canonChar, Bool.and_eq_true, Bool.or_eq_true]
  tauto

theorem block_not_space (c : Char) (h : inArabicBlock c = true) :
    isPySpace c = false := by
  rw [Bool.eq_false_iff]
  intro hs
  simp only [inArabicBlock, Bool.and_eq_true, decide_eq_true_eq] at h
  simp only [isPySpace, Bool.or_eq_true, Bool.and_eq_true, decide_eq_true_eq,
    beq_iff_eq] at hs
  omega

theorem canon_space (c : Char) (h : canonChar c = true) (hs : isPySpace c = true) :
    c = ' ' := by
  rcases (canon_props c h).1 with h1 | h1
  · exact h1
  · rw [block_not_space c h1] at hs; cases hs

theorem normalize_canon (x : List Char) : NormOK (normalize_arabic_text x) := by
  unfold normalize_arabic_text
  refine ⟨?_, chain'_stripWs _ (chain'_collapseWs _),
    fun c h => head?_stripWs _ c h, fun c h => getLast?_stripWs _ c h⟩
  intro c hc
  have hc' := mem_stripWs _ c hc
  rcases mem_collapseWs _ c hc' with rfl | ⟨hmem, hs⟩
  · decide
  · exact canonChar_of c (mem_normCore x c hmem) hs

theorem canon_toNat_le (c : Char) (h : canonChar c = true) : c.toNat ≤ 0x6FF := by
  rcases (canon_props c h).1 with rfl | hb
  · decide
  · simp only [inArabicBlock, Bool.and_eq_true, decide_eq_true_eq] at hb
    exact hb.2

theorem alefFix_eq_self (c : Char) (h : canonChar c = true) : alefFix c = c := by
  obtain ⟨_, _, _, h623, h625, h622, _, _, _⟩ := canon_props c h
  unfold alefFix
  split_ifs with hif
  · rcases hif with rfl | rfl | rfl | rfl
    · exact absurd rfl h623
    · exact absurd rfl h625
    · exact absurd rfl h622
    · rfl
  · rfl

theorem yaFix_eq_self (c : Char) (h : canonChar c = true) : yaFix c = c := by
  obtain ⟨_, _, _, _, _, _, _, h649, _⟩ := canon_props c h
  unfold yaFix
  split_ifs with hif
  · rcases hif with rfl | rfl
    · rfl
    · exact absurd rfl h649
  · rfl

theorem taFix_eq_self (c : Char) (h : canonChar c = true) : taFix c = c := by
  obtain ⟨_, _, _, _, _, _, _, _, h629⟩ := canon_props c h
  unfold taFix
  split_ifs with hif
  · rcases hif with rfl | rfl
    · exact absurd rfl h629
    · rfl
  · rfl

theorem waslaFix_eq_self (c : Char) (h : canonChar c = true) : waslaFix c = c := by
  obtain ⟨_, _, _, _, _, _, h671, _, _⟩ := canon_props c h
  unfold waslaFix
  rw [if_neg h671]

theorem allahExpand_eq_self (c : Char) (h : canonChar c = true) :
    allahExpand c = [c] := by
  have hne : c ≠ ch 0xFDF2 := by
    intro hif
    have := canon_toNat_le c h
    rw [hif] at this
    revert this; decide
  unfold allahExpand
  rw [if_neg hne]

theorem normalize_fix (l : List Char) (h : NormOK l) : normalize_arabic_text l = l := by
  obtain ⟨hcanon, hchain, hhead, hlast⟩ := h
  have hcore : normCore l = l := by
    have h1 : List.filter (fun c => !isDiacritic c) l = l :=
      List.filter_eq_self.mpr
        (fun c hc => by simp [(canon_props c (hcanon c hc)).2.1])
    have h2 : List.filter (fun c => c != ch 0x640) l = l :=
      List.filter_eq_self.mpr
        (fun c hc => by simp [bne_iff_ne, (canon_props c (hcanon c hc)).2.2.1])
    have h3 : List.map alefFix l = l :=
      map_id_of _ l (fun c hc => alefFix_eq_self c (hcanon c hc))
    have h4 : List.map yaFix l = l :=
      map_id_of _ l (fun c hc => yaFix_eq_self c (hcanon c hc))
    have h5 : List.map taFix l = l :=
      map_id_of _ l (fun c hc => taFix_eq_self c (hcanon c hc))
    have h6 : List.map waslaFix l = l :=
      map_id_of _ l (fun c hc => waslaFix_eq_self c (hcanon c hc))
    have h7 : l.flatMap allahExpand = l :=
      flatMap_id_of _ l (fun c hc => allahExpand_eq_self c (hcanon c hc))
    have h8 : List.filter (fun c => c != ch 0xFDFA && c != ch 0xFDFB) l = l := by
      refine List.filter_eq_self.mpr (fun c hc => ?_)
      have hle := canon_toNat_le c (hcanon c hc)
      have hfa : c ≠ ch 0xFDFA := by
        intro hif; rw [hif] at hle; revert hle; decide
      have hfb : c ≠ ch 0xFDFB := by
        intro hif; rw [hif] at hle; revert hle; decide
      simp [bne_iff_ne, hfa, hfb]
    have h9 : List.filter (fun c => inArabicBlock c || isPySpace c) l = l := by
      refine List.filter_eq_self.mpr (fun c hc => ?_)
      rcases (canon_props c (hcanon c hc)).1 with rfl | hb
      · decide
      · simp [hb]
    unfold normCore
    rw [h1, h2, h3, h4, h5, h6, h7, h8, h9]
  have hcol : collapseWs l = l :=
    collapseWs_eq_self l hchain (fun c hc hs => canon_space c (hcanon c hc) hs)
  unfold normalize_arabic_text
  rw [hcore, hcol, stripWs_eq_self l hhead hlast]

/-- Idempotence of the normalizer, for reuse throughout. -/
theorem normalize_idem (x : List Char) :
    normalize_arabic_text (normalize_arabic_text x) = normalize_arabic_text x :=
  normalize_fix _ (normalize_canon x)

/-- The single-letter test is insensitive to pre-normalizing its argument. -/
theorem is_single_norm (x : List Char) :
    is_single_arabic_letter (normalize_arabic_text x) = is_single_arabic_letter x := by
  unfold is_single_arabic_letter
  rw [normalize_idem]

/-! ### Edit distance: edit scripts, symmetry, triangle inequality -/

theorem lev_nil_left (ys : List Char) : lev [] ys = ys.length := by
  cases ys <;> simp [lev]

theorem lev_nil_right : ∀ xs : List Char, lev xs [] = xs.length
  | [] => by simp [lev]
  | _ :: _ => by simp [lev]

theorem lev_cons_cons (x y : Char) (xs ys : List Char) :
    lev (x :: xs) (y :: ys) =
      min (lev xs (y :: ys) + 1)
        (min (lev (x :: xs) ys + 1) (lev xs ys + if x = y then 0 else 1)) := by
  simp [lev]

theorem aligns_nil_left : ∀ ys : List Char, Aligns [] ys ys.length
  | [] => Aligns.nil
  | y :: ys => Aligns.ins y (aligns_nil_left ys)

theorem aligns_nil_right : ∀ xs : List Char, Aligns xs [] xs.length
  | [] => Aligns.nil
  | x :: xs => Aligns.del x (aligns_nil_right xs)

theorem lev_le_del (x y : Char) (xs ys : List Char) :
    lev (x :: xs) (y :: ys) ≤ lev xs (y :: ys) + 1 := by
  rw [lev_cons_cons]; exact min_le_left _ _

theorem lev_le_ins (x y : Char) (xs ys : List Char) :
    lev (x :: xs) (y :: ys) ≤ lev (x :: xs) ys + 1 := by
  rw [lev_cons_cons]; exact le_trans (min_le_right _ _) (min_le_left _ _)

theorem lev_le_subst (x y : Char) (xs ys : List Char) :
    lev (x :: xs) (y :: ys) ≤ lev xs ys + if x = y then 0 else 1 := by
  rw [lev_cons_cons]; exact le_trans (min_le_right _ _) (min_le_right _ _)

theorem lev_le_of_aligns : ∀ {xs ys : List Char} {n : Nat},
    Aligns xs ys n → lev xs ys ≤ n := by
  intro xs ys n h
  induction h with
  | nil => simp [lev]
  | keep x h ih =>
    refine le_trans (le_trans (lev_le_subst _ _ _ _) ?_) ih
    simp
  | subst x y h ih =>
    refine le_trans (lev_le_subst _ _ _ _) ?_
    split_ifs <;> omega
  | ins y h ih =>
    rename_i xs' ys' n'
    cases xs' with
    | nil => rw [lev_nil_left] at ih ⊢; simp; omega
    | cons a as => exact le_trans (lev_le_ins _ _ _ _) (by omega)
  | del x h ih =>
    rename_i xs' ys' n'
    cases ys' with
    | nil => rw [lev_nil_right] at ih ⊢; simp; omega
    | cons b bs => exact le_trans (lev_le_del _ _ _ _) (by omega)

theorem aligns_symm : ∀ {xs ys : List Char} {n : Nat},
    Aligns xs ys n → Aligns ys xs n := by
  intro xs ys n h
  induction h with
  | nil => exact Aligns.nil
  | keep x _ ih => exact Aligns.keep x ih
  | subst x y _ ih => exact Aligns.subst y x ih
  | ins y _ ih => exact Aligns.del y ih
  | del x _ ih => exact Aligns.ins x ih

theorem lev_aligns : ∀ xs ys : List Char, Aligns xs ys (lev xs ys)
  | [], ys => by rw [lev_nil_left]; exact aligns_nil_left ys
  | x :: xs, [] => by rw [lev_nil_right]; exact aligns_nil_right (x :: xs)
  | x :: xs, y :: ys => by
    have hA := lev_aligns xs (y :: ys)
    have hB := lev_aligns (x :: xs) ys
    have hC := lev_aligns xs ys
    rw [lev_cons_cons]
    rcases min_cases (lev xs (y :: ys) + 1)
        (min (lev (x :: xs) ys + 1) (lev xs ys + if x = y then 0 else 1)) with
      ⟨h, _⟩ | ⟨h, _⟩
    · rw [h]; exact Aligns.del x hA
    · rw [h]
      rcases min_cases (lev (x :: xs) ys + 1)
          (lev xs ys + if x = y then 0 else 1) with ⟨h2, _⟩ | ⟨h2, _⟩
      · rw [h2]; exact Aligns.ins y hB
      · rw [h2]
        by_cases hxy : x = y
        · rw [if_pos hxy]; subst hxy
          exact Aligns.keep x hC
        · rw [if_neg hxy]; exact Aligns.subst x y hC

theorem aligns_max : ∀ xs ys : List Char, Aligns xs ys (max xs.length ys.length)
  | [], ys => by simpa using aligns_nil_left ys
  | x :: xs, [] => by simpa using aligns_nil_right (x :: xs)
  | x :: xs, y :: ys => by
    have h := Aligns.subst x y (aligns_max xs ys)
    simpa [Nat.succ_max_succ] using h

theorem aligns_trans : ∀ (N : Nat) (a b c : List Char) (m n : Nat),
    a.length + b.length + c.length ≤ N → Aligns a b m → Aligns b c n →
    ∃ k, k ≤ m + n ∧ Aligns a c k := by
  intro N
  induction N with
  | zero =>
    intro a b c m n hlen h1 h2
    have ha : a = [] := List.length_eq_zero.mp (by omega)
    have hb : b = [] := List.length_eq_zero.mp (by omega)
    have hc : c = [] := List.length_eq_zero.mp (by omega)
    subst ha; subst hb; subst hc
    cases h1
    cases h2
    exact ⟨0, Nat.zero_le _, Aligns.nil⟩
  | succ N ih =>
    intro a b c m n hlen h1 h2
    cases h2 with
    | nil => exact ⟨m, by omega, h1⟩
    | ins z h2' =>
      obtain ⟨k, hk, hal⟩ := ih a b _ m _ (by simp at hlen ⊢; omega) h1 h2'
      exact ⟨k + 1, by omega, Aligns.ins z hal⟩
    | keep y h2' =>
      cases h1 with
      | keep x h1' =>
        obtain ⟨k, hk, hal⟩ := ih _ _ _ _ _ (by simp at hlen ⊢; omega) h1' h2'
        exact ⟨k, by omega, Aligns.keep y hal⟩
      | subst x y2 h1' =>
        obtain ⟨k, hk, hal⟩ := ih _ _ _ _ _ (by simp at hlen ⊢; omega) h1' h2'
        exact ⟨k + 1, by omega, Aligns.subst x y hal⟩
      | ins y2 h1' =>
        obtain ⟨k, hk, hal⟩ := ih _ _ _ _ _ (by simp at hlen ⊢; omega) h1' h2'
        exact ⟨k + 1, by omega, Aligns.ins y hal⟩
      | del x h1' =>
        obtain ⟨k, hk, hal⟩ :=
          ih _ _ _ _ _ (by simp at hlen ⊢; omega) h1' (Aligns.keep y h2')
        exact ⟨k + 1, by omega, Aligns.del x hal⟩
    | subst y z h2' =>
      cases h1 with
      | keep x h1' =>
        obtain ⟨k, hk, hal⟩ := ih _ _ _ _ _ (by simp at hlen ⊢; omega) h1' h2'
        exact ⟨k + 1, by omega, Aligns.subst y z hal⟩
      | subst x y2 h1' =>
        obtain ⟨k, hk, hal⟩ := ih _ _ _ _ _ (by simp at hlen ⊢; omega) h1' h2'
        exact ⟨k + 1, by omega, Aligns.subst x z hal⟩
      | ins y2 h1' =>
        obtain ⟨k, hk, hal⟩ := ih _ _ _ _ _ (by simp at hlen ⊢; omega) h1' h2'
        exact ⟨k + 1, by omega, Aligns.ins z hal⟩
      | del x h1' =>
        obtain ⟨k, hk, hal⟩ :=
          ih _ _ _ _ _ (by simp at hlen ⊢; omega) h1' (Aligns.subst y z h2')
        exact ⟨k + 1, by omega, Aligns.del x hal⟩
    | del y h2' =>
      cases h1 with
      | keep x h1' =>
        obtain ⟨k, hk, hal⟩ := ih _ _ _ _ _ (by simp at hlen ⊢; omega) h1' h2'
        exact ⟨k + 1, by omega, Aligns.del y hal⟩
      | subst x y2 h1' =>
        obtain ⟨k, hk, hal⟩ := ih _ _ _ _ _ (by simp at hlen ⊢; omega) h1' h2'
        exact ⟨k + 1, by omega, Aligns.del x hal⟩
      | ins y2 h1' =>
        obtain ⟨k, hk, hal⟩ := ih _ _ _ _ _ (by simp at hlen ⊢; omega) h1' h2'
        exact ⟨k, by omega, hal⟩
      | del x h1' =>
        obtain ⟨k, hk, hal⟩ :=
          ih _ _ _ _ _ (by simp at hlen ⊢; omega) h1' (Aligns.del y h2')
        exact ⟨k + 1, by omega, Aligns.del x hal⟩

theorem lev_symm (xs ys : List Char) : lev xs ys = lev ys xs :=
  le_antisymm (lev_le_of_aligns (aligns_symm (lev_aligns ys xs)))
    (lev_le_of_aligns (aligns_symm (lev_aligns xs ys)))

theorem lev_triangle (a b c : List Char) : lev a c ≤ lev a b + lev b c := by
  obtain ⟨k, hk, hal⟩ := aligns_trans (a.length + b.length + c.length) a b c _ _
    le_rfl (lev_aligns a b) (lev_aligns b c)
  exact le_trans (lev_le_of_aligns hal) hk

theorem lev_le_max (xs ys : List Char) : lev xs ys ≤ max xs.length ys.length :=
  lev_le_of_aligns (aligns_max xs ys)

theorem levTable_eq_lev (s1 s2 : List Char) : ∀ n i j : Nat, i + j ≤ n →
    i ≤ s1.length → j ≤ s2.length →
    levTable s1 s2 i j = lev ((s1.take i).reverse) ((s2.take j).reverse) := by
  intro n
  induction n with
  | zero =>
    intro i j hij hi hj
    obtain rfl : i = 0 := by omega
    obtain rfl : j = 0 := by omega
    simp [levTable, lev]
  | succ n ih =>
    intro i j hij hi hj
    rcases i with _ | i <;> rcases j with _ | j
    · simp [levTable, lev]
    · simp only [levTable, List.take_zero, List.reverse_nil, lev_nil_left,
        List.length_reverse, List.length_take]
      omega
    · simp only [levTable, List.take_zero, List.reverse_nil, lev_nil_right,
        List.length_reverse, List.length_take]
      omega
    · have hi' : i < s1.length := by omega
      have hj' : j < s2.length := by omega
      have e1 := ih i (j + 1) (by omega) (by omega) hj
      have e2 := ih (i + 1) j (by omega) hi (by omega)
      have e3 := ih i j (by omega) (by omega) (by omega)
      have hs1 : (s1.take (i + 1)).reverse = s1.getD i ' ' :: (s1.take i).reverse := by
        rw [List.take_succ, List.reverse_append,
          List.getElem?_eq_getElem hi', List.getD_eq_getElem s1 ' ' hi']
        rfl
      have hs2 : (s2.take (j + 1)).reverse = s2.getD j ' ' :: (s2.take j).reverse := by
        rw [List.take_succ, List.reverse_append,
          List.getElem?_eq_getElem hj', List.getD_eq_getElem s2 ' ' hj']
        rfl
      rw [hs1, hs2, lev_cons_cons]
      simp only [levTable]
      rw [e1, e2, e3, hs2, hs1]

theorem levenshtein_eq_lev (s1 s2 : List Char) :
    levenshtein_distance s1 s2 = lev s1.reverse s2.reverse := by
  unfold levenshtein_distance
  rw [levTable_eq_lev s1 s2 (s1.length + s2.length) _ _ le_rfl le_rfl le_rfl,
    List.take_length, List.take_length]

theorem levenshtein_symm (a b : List Char) :
    levenshtein_distance a b = levenshtein_distance b a := by
  rw [levenshtein_eq_lev, levenshtein_eq_lev, lev_symm]

theorem levenshtein_triangle (a b c : List Char) :
    levenshtein_distance a c ≤ levenshtein_distance a b + levenshtein_distance b c := by
  rw [levenshtein_eq_lev, levenshtein_eq_lev, levenshtein_eq_lev]
  exact lev_triangle a.reverse b.reverse c.reverse

theorem levenshtein_le_max (a b : List Char) :
    levenshtein_distance a b ≤ max a.length b.length := by
  rw [levenshtein_eq_lev]
  simpa using lev_le_max a.reverse b.reverse

/-! ### Score bounds -/

theorem compare_words_nonneg (a b : List Char) : 0 ≤ compare_words a b := by
  simp only [compare_words]
  split_ifs with h
  · norm_num
  · have hle := levenshtein_le_max a b
    have hpos : (0 : ℚ) < ((max a.length b.length : Nat) : ℚ) := by
      exact_mod_cast Nat.pos_of_ne_zero h
    rw [sub_nonneg, div_le_one hpos]
    exact_mod_cast hle

theorem compare_words_le_one (a b : List Char) : compare_words a b ≤ 1 := by
  simp only [compare_words]
  split_ifs with h
  · exact le_refl 1
  · have hd : (0 : ℚ) ≤ (levenshtein_distance a b : ℚ) := by positivity
    have hm : (0 : ℚ) ≤ ((max a.length b.length : Nat) : ℚ) := by positivity
    have : (0 : ℚ) ≤ (levenshtein_distance a b : ℚ) / ((max a.length b.length : Nat) : ℚ) :=
      div_nonneg hd hm
    linarith

theorem letterAltLoop_bounds : ∀ (ns : List Char) (alts : List (List Char)) (v : ℚ),
    letterAltLoop ns alts = some v → 0 ≤ v ∧ v ≤ 1
  | ns, [], v => by simp [letterAltLoop]
  | ns, alt :: rest, v => by
    intro h
    simp only [letterAltLoop] at h
    split_ifs at h with h1 h2 h3
    · rw [Option.some_inj] at h
      subst h; norm_num
    · rw [Option.some_inj] at h
      have hcw1 := compare_words_le_one ns (normalize_arabic_text alt)
      have hcw0 := compare_words_nonneg ns (normalize_arabic_text alt)
      subst h
      constructor <;> nlinarith
    · exact letterAltLoop_bounds ns rest v h
    · exact letterAltLoop_bounds ns rest v h

theorem foldl_max_bounds (ns : List Char) :
    ∀ (alts : List (List Char)) (a : ℚ), 0 ≤ a → a ≤ 1 →
      0 ≤ alts.foldl
          (fun acc alt => max acc (compare_words ns (normalize_arabic_text alt))) a ∧
        alts.foldl
          (fun acc alt => max acc (compare_words ns (normalize_arabic_text alt))) a ≤ 1
  | [], a, h0, h1 => ⟨h0, h1⟩
  | alt :: rest, a, h0, h1 => by
    simp only [List.foldl_cons]
    refine foldl_max_bounds ns rest _ ?_ ?_
    · exact le_trans h0 (le_max_left _ _)
    · exact max_le h1 (compare_words_le_one ns (normalize_arabic_text alt))

theorem cps_bounds (s t : List Char) (alts : List (List Char)) :
    0 ≤ calculate_phonetic_similarity s t alts ∧
      calculate_phonetic_similarity s t alts ≤ 1 := by
  simp only [calculate_phonetic_similarity]
  obtain ⟨hM0, hM1⟩ := foldl_max_bounds s alts 0 le_rfl (by norm_num)
  split_ifs with h
  · norm_num
  · constructor <;> nlinarith

theorem csl_bounds (s t : List Char) :
    0 ≤ compare_single_letter s t ∧ compare_single_letter s t ≤ 1 := by
  simp only [compare_single_letter]
  by_cases h1 : normalize_arabic_text s = normalize_arabic_text t
  · rw [if_pos h1]; norm_num
  rw [if_neg h1]
  rcases hpl : phonLookup (normalize_arabic_text t) with _ | alts
  · simp only [hpl]; norm_num
  simp only [hpl]
  rcases hlp : letterAltLoop (normalize_arabic_text s) alts with _ | v
  · simp only [hlp]
    split_ifs with h2
    · norm_num
    · exact cps_bounds _ _ alts
  · simp only [hlp]
    exact letterAltLoop_bounds _ alts v hlp

theorem psb_bounds (rws fws : List (List Char)) (i : Nat) :
    0 ≤ position_similarity_base rws fws i ∧ position_similarity_base rws fws i ≤ 1 := by
  simp only [position_similarity_base]
  split_ifs with h1 h2 h3 h4
  · exact csl_bounds _ _
  · norm_num
  · have hb0 := compare_words_nonneg (rws.getD i []) (fws.getD i [])
    exact ⟨le_min (by norm_num) (by linarith), min_le_left _ _⟩
  · have hb0 := compare_words_nonneg (rws.getD i []) (fws.getD i [])
    exact ⟨le_min (by norm_num) (by linarith), min_le_left _ _⟩
  · norm_num

theorem rescue_bounds (rws : List (List Char)) (ref : List Char) (i : Nat) :
    ∀ (L : List Nat) (w : ℚ), 0 ≤ w → w ≤ 1 →
      0 ≤ L.foldl
          (fun acc j =>
            if j ≠ i then
              if compare_words (rws.getD j []) ref > acc then
                compare_words (rws.getD j []) ref * 0.8
              else acc
            else acc) w ∧
        L.foldl
          (fun acc j =>
            if j ≠ i then
              if compare_words (rws.getD j []) ref > acc then
                compare_words (rws.getD j []) ref * 0.8
              else acc
            else acc) w ≤ 1
  | [], w, h0, h1 => ⟨h0, h1⟩
  | j :: L, w, h0, h1 => by
    simp only [List.foldl_cons]
    have hc0 := compare_words_nonneg (rws.getD j []) ref
    have hc1 := compare_words_le_one (rws.getD j []) ref
    refine rescue_bounds rws ref i L _ ?_ ?_ <;> split_ifs <;> nlinarith

theorem ps_bounds (rws fws : List (List Char)) (i : Nat) :
    0 ≤ position_similarity rws fws i ∧ position_similarity rws fws i ≤ 1 := by
  simp only [position_similarity, positional_rescue]
  obtain ⟨hb0, hb1⟩ := psb_bounds rws fws i
  split_ifs with h
  · exact rescue_bounds rws (fws.getD i []) i (List.range rws.length) _ hb0 hb1
  · exact ⟨hb0, hb1⟩

theorem foldl_add_bounds (f : Nat → ℚ) (hf : ∀ i, 0 ≤ f i ∧ f i ≤ 1) :
    ∀ (L : List Nat) (a : ℚ),
      a ≤ L.foldl (fun acc i => acc + f i) a ∧
        L.foldl (fun acc i => acc + f i) a ≤ a + L.length
  | [], a => by simp
  | j :: L, a => by
    simp only [List.foldl_cons, List.length_cons]
    obtain ⟨ih1, ih2⟩ := foldl_add_bounds f hf L (a + f j)
    obtain ⟨hj0, hj1⟩ := hf j
    constructor
    · linarith
    · push_cast
      linarith

theorem avg_bounds (rws fws : List (List Char)) (hne : fws ≠ []) :
    0 ≤ (List.range fws.length).foldl
        (fun acc i => acc + position_similarity rws fws i) 0 / (fws.length : ℚ) ∧
      (List.range fws.length).foldl
        (fun acc i => acc + position_similarity rws fws i) 0 / (fws.length : ℚ) ≤ 1 := by
  obtain ⟨ht1, ht2⟩ := foldl_add_bounds (position_similarity rws fws)
    (ps_bounds rws fws) (List.range fws.length) 0
  rw [List.length_range] at ht2
  have hlenq : (0 : ℚ) < (fws.length : ℚ) := by
    have : 0 < fws.length := List.length_pos.mpr hne
    exact_mod_cast this
  constructor
  · exact div_nonneg ht1 (le_of_lt hlenq)
  · rw [div_le_one hlenq]
    linarith

/-- The similarity returned by `compare_quranic_arabic` always lies in [0, 1]. -/
theorem cqa_bounds (recited reference : List Char) :
    0 ≤ compare_quranic_arabic recited reference ∧
      compare_quranic_arabic recited reference ≤ 1 := by
  simp only [compare_quranic_arabic]
  split_ifs with h1 h2 h3 h4
  · exact csl_bounds _ _
  · norm_num
  · norm_num
  · obtain ⟨havg0, havg1⟩ := avg_bounds
      (splitTokens (normalize_arabic_text recited))
      (splitTokens (normalize_arabic_text reference))
      (by simpa [List.isEmpty_iff] using h2)
    constructor <;> nlinarith
  · obtain ⟨havg0, havg1⟩ := avg_bounds
      (splitTokens (normalize_arabic_text recited))
      (splitTokens (normalize_arabic_text reference))
      (by simpa [List.isEmpty_iff] using h2)
    constructor <;> nlinarith

/-! ### Token splitting and self-comparison -/

theorem splitOnSpace_ne_nil : ∀ l : List Char, splitOnSpace l ≠ []
  | [] => by simp [splitOnSpace]
  | c :: rest => by
    by_cases hc : c = ' '
    · simp [splitOnSpace, hc]
    · simp only [splitOnSpace, if_neg hc]
      rcases h : splitOnSpace rest with _ | ⟨w, ws⟩
      · simp
      · simp

theorem splitTokens_cons_ne (c : Char) (l : List Char) (hc : c ≠ ' ') :
    splitTokens (c :: l) ≠ [] := by
  simp only [splitTokens, splitOnSpace, if_neg hc]
  rcases h : splitOnSpace l with _ | ⟨w, ws⟩
  · exact absurd h (splitOnSpace_ne_nil l)
  · simp

theorem splitTokens_normalize_ne_nil (x : List Char)
    (h : normalize_arabic_text x ≠ []) : splitTokens (normalize_arabic_text x) ≠ [] := by
  rcases hn : normalize_arabic_text x with _ | ⟨c, l⟩
  · exact absurd hn h
  · have hhead := (normalize_canon x).2.2.1 c (by rw [hn]; rfl)
    have hc : c ≠ ' ' := by
      intro hceq
      rw [hceq] at hhead
      revert hhead; decide
    exact splitTokens_cons_ne c l hc

theorem csl_self (s : List Char) : compare_single_letter s s = 1 := by
  simp [compare_single_letter]

theorem foldl_add_const_one (f : Nat → ℚ) :
    ∀ (L : List Nat) (a : ℚ), (∀ i ∈ L, f i = 1) →
      L.foldl (fun acc i => acc + f i) a = a + L.length
  | [], a, _ => by simp
  | j :: L, a, h => by
    simp only [List.foldl_cons, List.length_cons]
    rw [h j (by simp), foldl_add_const_one f L (a + 1) (fun i hi => h i (by simp [hi]))]
    push_cast
    ring

theorem foldl_add_eq_sum (f : Nat → ℚ) :
    ∀ (L : List Nat) (a : ℚ),
      L.foldl (fun acc i => acc + f i) a = a + (L.map f).sum
  | [], a => by simp
  | j :: L, a => by
    simp only [List.foldl_cons, List.map_cons, List.sum_cons]
    rw [foldl_add_eq_sum f L (a + f j)]
    ring

theorem position_self (fws : List (List Char)) (i : Nat) (hi : i < fws.length) :
    position_similarity fws fws i = 1 := by
  have hbase : position_similarity_base fws fws i = 1 := by
    simp only [position_similarity_base, if_pos hi]
    split_ifs with h2
    · exact csl_self _
    · rfl
  simp only [position_similarity, hbase]
  norm_num

/-- Reflexivity of the aligner away from the degenerate empty case: comparing
any text with a nonempty normalization against itself scores exactly 1. -/
theorem cqa_self (x : List Char) (h : normalize_arabic_text x ≠ []) :
    compare_quranic_arabic x x = 1 := by
  simp only [compare_quranic_arabic]
  have hne := splitTokens_normalize_ne_nil x h
  have hlen : 0 < (splitTokens (normalize_arabic_text x)).length :=
    List.length_pos.mpr hne
  have hlq : ((splitTokens (normalize_arabic_text x)).length : ℚ) ≠ 0 := by
    exact_mod_cast Nat.pos_iff_ne_zero.mp hlen
  split_ifs with h1 h2 h3
  · exact csl_self _
  · exact absurd (List.isEmpty_iff.mp h2) hne
  · exfalso
    rw [div_self hlq] at h3
    rcases h3 with h3 | h3 <;> norm_num at h3
  · have htot : (List.range (splitTokens (normalize_arabic_text x)).length).foldl
        (fun acc i => acc + position_similarity
          (splitTokens (normalize_arabic_text x))
          (splitTokens (normalize_arabic_text x)) i) 0 =
        ((splitTokens (normalize_arabic_text x)).length : ℚ) := by
      rw [foldl_add_const_one _ _ _
        (fun i hi => position_self _ i (List.mem_range.mp hi))]
      simp
    rw [htot, div_self hlq, one_mul]

/-! ### The length-ratio penalty -/

theorem cqa_ratio_eq (recited reference : List Char)
    (hsl : is_single_arabic_letter reference = false)
    (h1 : splitTokens (normalize_arabic_text reference) ≠ [])
    (h2 : splitTokens (normalize_arabic_text recited) ≠ []) :
    ((((splitTokens (normalize_arabic_text recited)).length : ℚ) /
          ((splitTokens (normalize_arabic_text reference)).length : ℚ) < 0.8 ∨
        ((splitTokens (normalize_arabic_text recited)).length : ℚ) /
          ((splitTokens (normalize_arabic_text reference)).length : ℚ) > 1.2) →
      compare_quranic_arabic recited reference =
        ((List.range (splitTokens (normalize_arabic_text reference)).length).map
            (position_similarity (splitTokens (normalize_arabic_text recited))
              (splitTokens (normalize_arabic_text reference)))).sum /
          ((splitTokens (normalize_arabic_text reference)).length : ℚ) * 0.9) ∧
    (0.8 ≤ ((splitTokens (normalize_arabic_text recited)).length : ℚ) /
          ((splitTokens (normalize_arabic_text reference)).length : ℚ) ∧
      ((splitTokens (normalize_arabic_text recited)).length : ℚ) /
          ((splitTokens (normalize_arabic_text reference)).length : ℚ) ≤ 1.2 →
      compare_quranic_arabic recited reference =
        ((List.range (splitTokens (normalize_arabic_text reference)).length).map
            (position_similarity (splitTokens (normalize_arabic_text recited))
              (splitTokens (normalize_arabic_text reference)))).sum /
          ((splitTokens (normalize_arabic_text reference)).length : ℚ)) := by
  have hsl' : is_single_arabic_letter (normalize_arabic_text reference) = false := by
    rw [is_single_norm]; exact hsl
  have he1 : ¬((splitTokens (normalize_arabic_text reference)).isEmpty = true) :=
    fun hx => h1 (List.isEmpty_iff.mp hx)
  have he2 : ¬((splitTokens (normalize_arabic_text recited)).isEmpty = true) :=
    fun hx => h2 (List.isEmpty_iff.mp hx)
  constructor <;> intro hcond
  · simp only [compare_quranic_arabic]
    rw [if_neg (by simp [hsl']), if_neg he1, if_neg he2, if_pos hcond,
      foldl_add_eq_sum, zero_add]
  · simp only [compare_quranic_arabic]
    rw [if_neg (by simp [hsl']), if_neg he1, if_neg he2,
      if_neg (by push_neg; exact ⟨hcond.1, hcond.2⟩),
      foldl_add_eq_sum, zero_add, mul_one]

/-! ### The phonetic fallback formula -/

theorem maxList_nonneg : ∀ L : List ℚ, (∀ x ∈ L, 0 ≤ x) → 0 ≤ maxList L
  | [], _ => le_rfl
  | x :: L, h => by
    simp only [maxList]
    exact le_trans (maxList_nonneg L (fun y hy => h y (by simp [hy])))
      (le_max_right x _)

theorem foldl_max_eq_maxList (f : List Char → ℚ) :
    ∀ (L : List (List Char)) (a : ℚ), 0 ≤ a →
      L.foldl (fun acc x => max acc (f x)) a = max a (maxList (L.map f))
  | [], a, h0 => by simp [maxList, max_eq_left h0]
  | x :: L, a, h0 => by
    simp only [List.foldl_cons, List.map_cons, maxList]
    rw [foldl_max_eq_maxList f L (max a (f x)) (le_trans h0 (le_max_left _ _)),
      max_assoc]

theorem cps_formula (s t : List Char) (alts : List (List Char)) :
    calculate_phonetic_similarity s t alts =
      if maxList (alts.map (fun a => compare_words s (normalize_arabic_text a))) < 0.3 ∧
          s.length ≤ 3 ∧ occursIn t s = true then 0.6
      else maxList (alts.map (fun a => compare_words s (normalize_arabic_text a))) * 0.8 := by
  have hnn : 0 ≤ maxList (alts.map (fun a => compare_words s (normalize_arabic_text a))) := by
    apply maxList_nonneg
    intro y hy
    rw [List.mem_map] at hy
    obtain ⟨a, _, rfl⟩ := hy
    exact compare_words_nonneg _ _
  simp only [calculate_phonetic_similarity]
  rw [foldl_max_eq_maxList _ alts 0 le_rfl, max_eq_right hnn]

/-! ### Letters spoken as silence: the empty-normalization path -/

theorem occursIn_nil_left : ∀ l : List Char, occursIn [] l = true
  | [] => rfl
  | _ :: _ => by simp [occursIn, leadsList]

theorem levenshtein_nil_left (b : List Char) : levenshtein_distance [] b = b.length := by
  unfold levenshtein_distance
  cases b with
  | nil => simp [levTable]
  | cons c bs => simp [levTable]

theorem compare_words_nil_left (b : List Char) (hb : b ≠ []) :
    compare_words [] b = 0 := by
  have hlen : 0 < b.length := List.length_pos.mpr hb
  simp only [compare_words, List.length_nil, Nat.zero_max]
  rw [if_neg (by omega), levenshtein_nil_left]
  rw [div_self (by exact_mod_cast Nat.pos_iff_ne_zero.mp hlen)]
  ring

theorem levenshtein_nil_right (a : List Char) : levenshtein_distance a [] = a.length := by
  unfold levenshtein_distance
  simp [levTable]

theorem compare_words_nil_right (a : List Char) (ha : a ≠ []) :
    compare_words a [] = 0 := by
  have hlen : 0 < a.length := List.length_pos.mpr ha
  simp only [compare_words, List.length_nil, Nat.max_zero]
  rw [if_neg (by omega), levenshtein_nil_right]
  rw [div_self (by exact_mod_cast Nat.pos_iff_ne_zero.mp hlen)]
  ring

theorem letterAltLoop_empty : ∀ alts : List (List Char),
    (∃ a ∈ alts, normalize_arabic_text a = []) →
      letterAltLoop [] alts = some 0.95
  | [], h => by simp at h
  | alt :: rest, h => by
    simp only [letterAltLoop]
    by_cases hna : normalize_arabic_text alt = []
    · rw [if_pos hna.symm]
    · rw [if_neg (fun hx => hna hx.symm),
        if_pos (by simp [occursIn_nil_left]),
        if_neg (by rw [compare_words_nil_left _ hna]; norm_num)]
      apply letterAltLoop_empty rest
      rcases h with ⟨a, ha, hae⟩
      rcases List.mem_cons.mp ha with rfl | ha'
      · exact absurd hae hna
      · exact ⟨a, ha', hae⟩

/-- Every entry of the phonetic lexicon has an alternative whose normalization
is empty (the Latin transliterations), has a nonempty key, and its key is a
single character of the Arabic block. -/
theorem phonetics_table_facts :
    ∀ p ∈ get_arabic_letter_phonetics,
      (∃ a ∈ p.2, normalize_arabic_text a = []) ∧ p.1 ≠ [] ∧
        (match p.1 with
          | [c] => inArabicBlock c
          | _ => false) = true := by
  decide

theorem csl_empty_norm (spoken target : List Char)
    (hs : normalize_arabic_text spoken = [])
    (hk : normalize_arabic_text target ∈ get_arabic_letter_phonetics.map Prod.fst) :
    compare_single_letter spoken target = 0.95 := by
  have hex : ∃ p ∈ get_arabic_letter_phonetics,
      (p.1 == normalize_arabic_text target) = true := by
    rw [List.mem_map] at hk
    obtain ⟨p, hp, hfst⟩ := hk
    exact ⟨p, hp, by simp [hfst]⟩
  have hsome : (get_arabic_letter_phonetics.find?
      (fun q => q.1 == normalize_arabic_text target)).isSome :=
    List.find?_isSome.mpr hex
  obtain ⟨p, hfind⟩ := Option.isSome_iff_exists.mp hsome
  have hmem := List.mem_of_find?_eq_some hfind
  have hkey : p.1 = normalize_arabic_text target := by
    simpa using List.find?_some hfind
  obtain ⟨hemp, hkne, _⟩ := phonetics_table_facts p hmem
  simp only [compare_single_letter, hs]
  rw [if_neg (fun hx => hkne (by rw [hkey, ← hx]))]
  have hpl : phonLookup (normalize_arabic_text target) = some p.2 := by
    simp only [phonLookup, hfind]; rfl
  simp only [hpl]
  rw [letterAltLoop_empty p.2 hemp]

theorem cqa_empty_single (recited reference : List Char)
    (hr : normalize_arabic_text recited = [])
    (hk : normalize_arabic_text reference ∈ get_arabic_letter_phonetics.map Prod.fst) :
    compare_quranic_arabic recited reference = 0.95 := by
  have hex : ∃ p ∈ get_arabic_letter_phonetics,
      p.1 = normalize_arabic_text reference := by
    rw [List.mem_map] at hk
    obtain ⟨p, hp, hfst⟩ := hk
    exact ⟨p, hp, hfst⟩
  obtain ⟨p, hmem, hkey⟩ := hex
  have hsingle : is_single_arabic_letter (normalize_arabic_text reference) = true := by
    rw [is_single_norm]
    unfold is_single_arabic_letter
    rw [← hkey]
    exact (phonetics_table_facts p hmem).2.2
  simp only [compare_quranic_arabic, hsingle, if_true]
  apply csl_empty_norm
  · rw [normalize_idem]; exact hr
  · rw [normalize_idem]; exact hk

/-! ### The claims -/

/-- C1: for every pair of input strings, `compare_quranic_arabic` returns a
value v with 0 ≤ v ≤ 1, across all of its branches: single-letter delegation,
per-position scoring with the capped containment bonus, positional rescue,
averaging over reference tokens, and the 0.9 length penalty. -/
theorem claim_C1_score_in_unit_interval (recited reference : List Char) :
    0 ≤ compare_quranic_arabic recited reference ∧
      compare_quranic_arabic recited reference ≤ 1 :=
  cqa_bounds recited reference

/-- C2: `normalize_arabic_text` is idempotent. -/
theorem claim_C2_normalize_idempotent (x : List Char) :
    normalize_arabic_text (normalize_arabic_text x) = normalize_arabic_text x :=
  normalize_idem x

/-- C3: when the token-count ratio falls outside [0.8, 1.2] the result of
`compare_quranic_arabic` is exactly the per-position average multiplied by
0.9, and when the ratio lies within [0.8, 1.2] the average is returned
unchanged. -/
theorem claim_C3_length_ratio_penalty (recited reference : List Char)
    (hsl : is_single_arabic_letter reference = false)
    (h1 : splitTokens (normalize_arabic_text reference) ≠ [])
    (h2 : splitTokens (normalize_arabic_text recited) ≠ []) :
    ((((splitTokens (normalize_arabic_text recited)).length : ℚ) /
          ((splitTokens (normalize_arabic_text reference)).length : ℚ) < 0.8 ∨
        ((splitTokens (normalize_arabic_text recited)).length : ℚ) /
          ((splitTokens (normalize_arabic_text reference)).length : ℚ) > 1.2) →
      compare_quranic_arabic recited reference =
        ((List.range (splitTokens (normalize_arabic_text reference)).length).map
            (position_similarity (splitTokens (normalize_arabic_text recited))
              (splitTokens (normalize_arabic_text reference)))).sum /
          ((splitTokens (normalize_arabic_text reference)).length : ℚ) * 0.9) ∧
    (0.8 ≤ ((splitTokens (normalize_arabic_text recited)).length : ℚ) /
          ((splitTokens (normalize_arabic_text reference)).length : ℚ) ∧
      ((splitTokens (normalize_arabic_text recited)).length : ℚ) /
          ((splitTokens (normalize_arabic_text reference)).length : ℚ) ≤ 1.2 →
      compare_quranic_arabic recited reference =
        ((List.range (splitTokens (normalize_arabic_text reference)).length).map
            (position_similarity (splitTokens (normalize_arabic_text recited))
              (splitTokens (normalize_arabic_text reference)))).sum /
          ((splitTokens (normalize_arabic_text reference)).length : ℚ)) :=
  cqa_ratio_eq recited reference hsl h1 h2

/-- Witness for C3: a five-token reference against a two-token recitation
(ratio 0.4) takes the penalized branch. -/
theorem claim_C3_length_ratio_penalty_witness :
    is_single_arabic_letter sample_five_tokens = false ∧
    splitTokens (normalize_arabic_text sample_five_tokens) ≠ [] ∧
    splitTokens (normalize_arabic_text sample_two_tokens) ≠ [] ∧
    (((splitTokens (normalize_arabic_text sample_two_tokens)).length : ℚ) /
        ((splitTokens (normalize_arabic_text sample_five_tokens)).length : ℚ) < 0.8 ∨
      ((splitTokens (normalize_arabic_text sample_two_tokens)).length : ℚ) /
        ((splitTokens (normalize_arabic_text sample_five_tokens)).length : ℚ) > 1.2) ∧
    compare_quranic_arabic sample_two_tokens sample_five_tokens =
      ((List.range (splitTokens (normalize_arabic_text sample_five_tokens)).length).map
          (position_similarity (splitTokens (normalize_arabic_text sample_two_tokens))
            (splitTokens (normalize_arabic_text sample_five_tokens)))).sum /
        ((splitTokens (normalize_arabic_text sample_five_tokens)).length : ℚ) * 0.9 := by
  have h2 : (splitTokens (normalize_arabic_text sample_two_tokens)).length = 2 := by decide
  have h5 : (splitTokens (normalize_arabic_text sample_five_tokens)).length = 5 := by decide
  have hr : ((splitTokens (normalize_arabic_text sample_two_tokens)).length : ℚ) /
        ((splitTokens (normalize_arabic_text sample_five_tokens)).length : ℚ) < 0.8 ∨
      ((splitTokens (normalize_arabic_text sample_two_tokens)).length : ℚ) /
        ((splitTokens (normalize_arabic_text sample_five_tokens)).length : ℚ) > 1.2 := by
    rw [h2, h5]; left; norm_num
  exact ⟨by decide, by decide, by decide, hr,
    (claim_C3_length_ratio_penalty sample_two_tokens sample_five_tokens
      (by decide) (by decide) (by decide)).1 hr⟩

/-- C4: in the phonetic fallback of `compare_single_letter` (reached when no
earlier rule fires), with M the maximum word similarity against the
normalized alternatives: a maximum below 0.3 with a short spoken text that
contains the target character yields exactly 0.6, otherwise exactly M times
0.8. -/
theorem claim_C4_phonetic_fallback (spoken target : List Char)
    (alts : List (List Char))
    (hne : normalize_arabic_text spoken ≠ normalize_arabic_text target)
    (hpl : phonLookup (normalize_arabic_text target) = some alts)
    (hloop : letterAltLoop (normalize_arabic_text spoken) alts = none)
    (hsub : occursIn (normalize_arabic_text target) (normalize_arabic_text spoken) = false) :
    compare_single_letter spoken target =
      if maxList (alts.map (fun a => compare_words (normalize_arabic_text spoken)
            (normalize_arabic_text a))) < 0.3 ∧
          (normalize_arabic_text spoken).length ≤ 3 ∧
          occursIn (normalize_arabic_text target) (normalize_arabic_text spoken) = true
      then 0.6
      else maxList (alts.map (fun a => compare_words (normalize_arabic_text spoken)
            (normalize_arabic_text a))) * 0.8 := by
  simp only [compare_single_letter]
  rw [if_neg hne]
  simp only [hpl, hloop]
  rw [if_neg (by simp [hsub])]
  exact cps_formula _ _ alts

/-- Witness for C4: the word `قلم` against the letter `ب` reaches the fallback
and scores M * 0.8 = 0. -/
theorem claim_C4_phonetic_fallback_witness :
    normalize_arabic_text sample_qlm ≠ normalize_arabic_text sample_ba ∧
    phonLookup (normalize_arabic_text sample_ba) = some sample_ba_alts ∧
    letterAltLoop (normalize_arabic_text sample_qlm) sample_ba_alts = none ∧
    occursIn (normalize_arabic_text sample_ba) (normalize_arabic_text sample_qlm) = false ∧
    compare_single_letter sample_qlm sample_ba =
      if maxList (sample_ba_alts.map (fun a => compare_words (normalize_arabic_text sample_qlm)
            (normalize_arabic_text a))) < 0.3 ∧
          (normalize_arabic_text sample_qlm).length ≤ 3 ∧
          occursIn (normalize_arabic_text sample_ba) (normalize_arabic_text sample_qlm) = true
      then 0.6
      else maxList (sample_ba_alts.map (fun a => compare_words (normalize_arabic_text sample_qlm)
            (normalize_arabic_text a))) * 0.8 := by
  have hq : normalize_arabic_text sample_qlm = sample_qlm := by decide
  have hn5 : normalize_arabic_text [ch 0x62, ch 0x61, ch 0x61] = [] := by decide
  have hn6 : normalize_arabic_text [ch 0x62, ch 0x61] = [] := by decide
  have hcw : compare_words sample_qlm [] = 0 :=
    compare_words_nil_right sample_qlm (by decide)
  have hloop : letterAltLoop (normalize_arabic_text sample_qlm) sample_ba_alts = none := by
    rw [hq]
    simp +decide only [letterAltLoop, sample_ba_alts, hn5, hn6, hcw]
    norm_num
  exact ⟨by decide, by decide, hloop, by decide,
    claim_C4_phonetic_fallback sample_qlm sample_ba sample_ba_alts
      (by decide) (by decide) hloop (by decide)⟩

/-- C5: with a multi-letter reference, an empty reference token sequence gives
0.0, and a nonempty reference with an empty recited token sequence also gives
0.0; in particular the empty recitation against `بسم الله` scores 0.0. -/
theorem claim_C5_empty_tokens_zero :
    (∀ recited reference : List Char, is_single_arabic_letter reference = false →
      (splitTokens (normalize_arabic_text reference) = [] →
        compare_quranic_arabic recited reference = 0) ∧
      (splitTokens (normalize_arabic_text reference) ≠ [] →
        splitTokens (normalize_arabic_text recited) = [] →
        compare_quranic_arabic recited reference = 0)) ∧
    compare_quranic_arabic [] sample_basmala = 0 := by
  constructor
  · intro recited reference hsl
    have hsl' : is_single_arabic_letter (normalize_arabic_text reference) = false := by
      rw [is_single_norm]; exact hsl
    constructor
    · intro he
      simp only [compare_quranic_arabic]
      rw [if_neg (by simp [hsl']), if_pos (by simp [he])]
    · intro _ he
      simp only [compare_quranic_arabic]
      rw [if_neg (by simp [hsl'])]
      by_cases h9 : (splitTokens (normalize_arabic_text reference)).isEmpty = true
      · rw [if_pos h9]
      · rw [if_neg h9, if_pos (by simp [he])]
  · decide

/-- Witness for C5: both empty-token cases, instantiated concretely. -/
theorem claim_C5_empty_tokens_zero_witness :
    is_single_arabic_letter sample_excl = false ∧
    splitTokens (normalize_arabic_text sample_excl) = [] ∧
    compare_quranic_arabic sample_qlm sample_excl = 0 ∧
    is_single_arabic_letter sample_basmala = false ∧
    splitTokens (normalize_arabic_text sample_basmala) ≠ [] ∧
    splitTokens (normalize_arabic_text []) = [] ∧
    compare_quranic_arabic [] sample_basmala = 0 :=
  ⟨by decide, by decide,
    (claim_C5_empty_tokens_zero.1 sample_qlm sample_excl (by decide)).1 (by decide),
    by decide, by decide, by decide,
    (claim_C5_empty_tokens_zero.1 [] sample_basmala (by decide)).2
      (by decide) (by decide)⟩

/-- C6: every recitation whose normalization is empty scores 0.95 against any
target letter that is a key of the phonetic lexicon, both through
`compare_single_letter` directly and through `compare_quranic_arabic`,
because the Latin transliteration alternatives normalize to the empty
string. -/
theorem claim_C6_empty_normalization_scores (recited : List Char)
    (hr : normalize_arabic_text recited = []) :
    ∀ p ∈ get_arabic_letter_phonetics,
      compare_single_letter recited p.1 = 0.95 ∧
        compare_quranic_arabic recited p.1 = 0.95 := by
  have hkeys : ∀ p ∈ get_arabic_letter_phonetics,
      normalize_arabic_text p.1 ∈ get_arabic_letter_phonetics.map Prod.fst := by
    decide
  intro p hp
  exact ⟨csl_empty_norm recited p.1 hr (hkeys p hp),
    cqa_empty_single recited p.1 hr (hkeys p hp)⟩

/-- Witness for C6: the empty recitation against the lexicon entry of `ب`. -/
theorem claim_C6_empty_normalization_scores_witness :
    normalize_arabic_text [] = [] ∧
    (sample_ba, sample_ba_alts) ∈ get_arabic_letter_phonetics ∧
    compare_single_letter [] sample_ba = 0.95 ∧
    compare_quranic_arabic [] sample_ba = 0.95 := by
  have h := claim_C6_empty_normalization_scores [] (by decide)
    (sample_ba, sample_ba_alts) (by decide)
  exact ⟨by decide, by decide, h.1, h.2⟩

/-- C7: the full letter name `باء` spoken against the bare letter `ب` scores
exactly 0.95. -/
theorem claim_C7_letter_name_score :
    compare_single_letter sample_baa sample_ba = 0.95 := by
  have hns : normalize_arabic_text sample_baa = sample_baa := by decide
  have hnt : normalize_arabic_text sample_ba = sample_ba := by decide
  have hpl : phonLookup sample_ba = some sample_ba_alts := by decide
  have hna1 : normalize_arabic_text [ch 0x628, ch 0x627, ch 0x621] = sample_baa := by decide
  have hloop : letterAltLoop sample_baa sample_ba_alts = some 0.95 := by
    simp only [sample_ba_alts, letterAltLoop, hna1, if_true, eq_self_iff_true]
  simp only [compare_single_letter, hns, hnt]
  rw [if_neg (by decide : ¬(sample_baa = sample_ba))]
  simp only [hpl, hloop]

/-- C8: comparing a normalized, nonempty, non-single-letter phrase against
itself scores exactly 1. -/
theorem claim_C8_self_comparison (r : List Char)
    (hnorm : normalize_arabic_text r = r) (hne : r ≠ [])
    (_hsl : is_single_arabic_letter r = false) :
    compare_quranic_arabic r r = 1 :=
  cqa_self r (by rw [hnorm]; exact hne)

/-- Witness for C8: the full opening phrase compared against itself. -/
theorem claim_C8_self_comparison_witness :
    normalize_arabic_text sample_basmala_full = sample_basmala_full ∧
    sample_basmala_full ≠ [] ∧
    is_single_arabic_letter sample_basmala_full = false ∧
    compare_quranic_arabic sample_basmala_full sample_basmala_full = 1 :=
  ⟨by decide, by decide, by decide,
    claim_C8_self_comparison sample_basmala_full (by decide) (by decide) (by decide)⟩

/-- C9: normalizer output contains no diacritic, no tatweel, no character
outside the Arabic block other than the space, only the plain space as
whitespace, no two adjacent whitespace characters, and no leading or trailing
whitespace. -/
theorem claim_C9_normalizer_invariant (x : List Char) :
    (∀ c ∈ normalize_arabic_text x,
      isDiacritic c = false ∧ c ≠ ch 0x640 ∧ (c = ' ' ∨ inArabicBlock c = true) ∧
        (isPySpace c = true → c = ' ')) ∧
    List.Chain' SpacedRel (normalize_arabic_text x) ∧
    (normalize_arabic_text x).head? ≠ some ' ' ∧
    (normalize_arabic_text x).getLast? ≠ some ' ' := by
  obtain ⟨hcanon, hchain, hhead, hlast⟩ := normalize_canon x
  refine ⟨?_, hchain, ?_, ?_⟩
  · intro c hc
    obtain ⟨hbs, hdia, h640, _⟩ := canon_props c (hcanon c hc)
    exact ⟨hdia, h640, hbs, fun hs => canon_space c (hcanon c hc) hs⟩
  · intro hx
    exact absurd (hhead ' ' hx) (by decide)
  · intro hx
    exact absurd (hlast ' ' hx) (by decide)

/-- Witness for C9: the invariant instantiated on a noisy input, with the
membership hypothesis discharged on the letter `ب` of its output. -/
theorem claim_C9_normalizer_invariant_witness :
    ch 0x628 ∈ normalize_arabic_text sample_noisy ∧
    isDiacritic (ch 0x628) = false ∧ ch 0x628 ≠ ch 0x640 ∧
    (ch 0x628 = ' ' ∨ inArabicBlock (ch 0x628) = true) ∧
    (isPySpace (ch 0x628) = true → ch 0x628 = ' ') ∧
    (normalize_arabic_text sample_noisy).head? ≠ some ' ' ∧
    (normalize_arabic_text sample_noisy).getLast? ≠ some ' ' := by
  have h := claim_C9_normalizer_invariant sample_noisy
  have hmem : ch 0x628 ∈ normalize_arabic_text sample_noisy := by decide
  obtain ⟨h1, h2, h3, h4⟩ := h.1 (ch 0x628) hmem
  exact ⟨hmem, h1, h2, h3, h4, h.2.2.1, h.2.2.2⟩

/-- C10: `levenshtein_distance` is symmetric and satisfies the triangle
inequality. -/
theorem claim_C10_metric_properties :
    (∀ a b : List Char, levenshtein_distance a b = levenshtein_distance b a) ∧
    (∀ a b c : List Char,
      levenshtein_distance a c ≤ levenshtein_distance a b + levenshtein_distance b c) :=
  ⟨levenshtein_symm, levenshtein_triangle⟩

end QuranGrader
